import Mathlib

/-!
Verification of the REX ETP tracker filing-extraction and rollup pipeline.

This file gives a shallow embedding, in Lean, of the pipeline code in
`etp_tracker/` (`step3.py`, `step4.py`, `step5.py`, `utils.py`,
`body_extractors.py`, `async_client.py`) and proves or refutes the stated
properties of that code.

Modelling conventions:
* Python strings are Lean `String`s; all character-level operations
  (upper/lower/casefold, strip, splitting) are embedded as executable
  functions over `List Char` and are faithful for the ASCII texts the
  pipeline processes.
* pandas dataframes of string columns are lists of a `Row` structure; a
  missing / NaN cell is the empty string (the code normalises with
  `fillna("")` / `dtype=str` throughout).
* `pd.to_datetime(..., errors="coerce")` on the pipeline's ISO
  `YYYY-MM-DD` filing-date strings is embedded as `parseISODate`, giving
  `Option Int` (a proleptic-Gregorian day number, `none` for NaT);
  `sort_values("_fdt", kind="stable")` is a stable insertion sort on that
  key with NaT last, matching pandas `na_position="last"`.
* I/O (network fetches, the SGML parser's output, BeautifulSoup's table
  parse) enters each embedded function as an explicit argument.
-/

namespace EtpTracker

/-! ## Character and string primitives (ASCII semantics of the Python ops) -/

def chIsUpper (c : Char) : Bool := decide ('A' ≤ c) && decide (c ≤ 'Z')

def chIsLower (c : Char) : Bool := decide ('a' ≤ c) && decide (c ≤ 'z')

def chIsAlpha (c : Char) : Bool := chIsUpper c || chIsLower c

def chIsDigit (c : Char) : Bool := decide ('0' ≤ c) && decide (c ≤ '9')

def chIsSpace (c : Char) : Bool :=
  decide (c = ' ') || decide (c = '\t') || decide (c = '\n') || decide (c = '\r')

def chToUpper (c : Char) : Char :=
  if chIsLower c then Char.ofNat (c.toNat - 32) else c

def chToLower (c : Char) : Char :=
  if chIsUpper c then Char.ofNat (c.toNat + 32) else c

/-- Python `str.upper()` (ASCII). -/
def strUpper (s : String) : String := ⟨s.data.map chToUpper⟩

/-- Python `str.lower()` / `str.casefold()` (they agree on ASCII). -/
def strLower (s : String) : String := ⟨s.data.map chToLower⟩

def trimChars (l : List Char) : List Char :=
  ((l.dropWhile chIsSpace).reverse.dropWhile chIsSpace).reverse

/-- Python `str.strip()` (ASCII whitespace). -/
def strStrip (s : String) : String := ⟨trimChars s.data⟩

/-- Split a character list into maximal whitespace-free words. -/
def wordsAux : List Char → List Char → List (List Char)
  | [], acc => if acc.isEmpty then [] else [acc.reverse]
  | c :: t, acc =>
    if chIsSpace c then
      if acc.isEmpty then wordsAux t [] else acc.reverse :: wordsAux t []
    else wordsAux t (c :: acc)

/-- `utils.normalize_spacing`: `re.sub(r"\s+", " ", s).strip()`. -/
def normalize_spacing (s : String) : String :=
  ⟨List.intercalate [' '] (wordsAux s.data [])⟩

/-- Python `str.replace(pat, rep)`: non-overlapping, left to right.
Fuel-based so that the kernel can evaluate it. -/
def replaceAux (pat rep : List Char) : Nat → List Char → List Char
  | 0, l => l
  | _ + 1, [] => []
  | fuel + 1, c :: t =>
    if pat ≠ [] && pat.isPrefixOf (c :: t) then
      rep ++ replaceAux pat rep fuel ((c :: t).drop pat.length)
    else c :: replaceAux pat rep fuel t

def strReplace (s pat rep : String) : String :=
  ⟨replaceAux pat.data rep.data (s.data.length + 1) s.data⟩

/-- `utils.clean_fund_name_for_rollup`: apply the trademark replacement map,
the two ad-hoc fixups, drop parentheses characters, normalise spacing. -/
def clean_fund_name_for_rollup (raw : String) : String :=
  let s1 := strReplace raw "™" "TM"
  let s2 := strReplace s1 "- Osprey" "-Osprey"
  let s3 := strReplace s2 "+Staking" "+ Staking"
  let s4 : String := ⟨s3.data.filter (fun c => !(decide (c = '(') || decide (c = ')')))⟩
  normalize_spacing s4

/-- Python `str.title()` on ASCII: an alphabetic character is uppercased when
the previous character is not alphabetic, lowercased otherwise. -/
def titleAux : List Char → Bool → List Char
  | [], _ => []
  | c :: t, prevAlpha =>
    if chIsAlpha c then
      (if prevAlpha then chToLower c else chToUpper c) :: titleAux t true
    else c :: titleAux t false

/-- `utils.titlecase_safe`. -/
def titlecase_safe (s : String) : String := ⟨titleAux s.data false⟩

/-- Python `str.startswith` -/
def strStartsWith (s p : String) : Bool := p.data.isPrefixOf s.data

/-! ## Lexicographic order on strings (Python `<` on `str`, code-point order) -/

def clLE : List Char → List Char → Bool
  | [], _ => true
  | _ :: _, [] => false
  | a :: s, b :: t => if a = b then clLE s t else decide (a < b)

def sLE (x y : String) : Bool := clLE x.data y.data

def sLT (x y : String) : Bool := sLE x y && !(x == y)

theorem clLE_refl (l : List Char) : clLE l l = true := by
  induction l with
  | nil => rfl
  | cons a t ih => simp [clLE, ih]

theorem clLE_total (a b : List Char) : clLE a b = true ∨ clLE b a = true := by
  induction a generalizing b with
  | nil => left; rfl
  | cons x s ih =>
    cases b with
    | nil => right; rfl
    | cons y t =>
      by_cases hxy : x = y
      · subst hxy
        rcases ih t with h | h
        · left; simp [clLE, h]
        · right; simp [clLE, h]
      · rcases lt_trichotomy x y with h | h | h
        · left; simp [clLE, hxy, h]
        · exact absurd h hxy
        · right; simp [clLE, Ne.symm hxy, h, not_lt_of_lt h]

theorem clLE_antisymm {a b : List Char} (h1 : clLE a b = true) (h2 : clLE b a = true) :
    a = b := by
  induction a generalizing b with
  | nil =>
    cases b with
    | nil => rfl
    | cons y t => simp [clLE] at h2
  | cons x s ih =>
    cases b with
    | nil => simp [clLE] at h1
    | cons y t =>
      by_cases hxy : x = y
      · subst hxy
        simp only [clLE, if_pos rfl] at h1 h2
        rw [ih h1 h2]
      · simp only [clLE, if_neg hxy, if_neg (Ne.symm hxy), decide_eq_true_eq] at h1 h2
        exact absurd h1 (not_lt_of_lt h2)

theorem clLE_trans {a b c : List Char} (h1 : clLE a b = true) (h2 : clLE b c = true) :
    clLE a c = true := by
  induction a generalizing b c with
  | nil => rfl
  | cons x s ih =>
    cases b with
    | nil => simp [clLE] at h1
    | cons y t =>
      cases c with
      | nil => simp [clLE] at h2
      | cons z u =>
        by_cases hxy : x = y
        · subst hxy
          simp only [clLE, if_pos rfl] at h1
          by_cases hyz : x = z
          · subst hyz
            simp only [clLE, if_pos rfl] at h2 ⊢
            exact ih h1 h2
          · simp only [clLE, if_neg hyz] at h2 ⊢
            exact h2
        · simp only [clLE, if_neg hxy, decide_eq_true_eq] at h1
          by_cases hyz : y = z
          · subst hyz
            simp [clLE, hxy, h1]
          · simp only [clLE, if_neg hyz, decide_eq_true_eq] at h2
            have hxz : x < z := lt_trans h1 h2
            simp [clLE, ne_of_lt hxz, hxz]

theorem string_data_eq {x y : String} (h : x.data = y.data) : x = y := by
  cases x; cases y; simp only at h; rw [h]

theorem sLE_refl (x : String) : sLE x x = true := clLE_refl x.data

theorem sLE_total (x y : String) : sLE x y = true ∨ sLE y x = true := clLE_total _ _

theorem sLE_antisymm {x y : String} (h1 : sLE x y = true) (h2 : sLE y x = true) :
    x = y := string_data_eq (clLE_antisymm h1 h2)

theorem sLE_trans {x y z : String} (h1 : sLE x y = true) (h2 : sLE y z = true) :
    sLE x z = true := clLE_trans h1 h2

theorem sLT_iff {x y : String} : sLT x y = true ↔ sLE x y = true ∧ x ≠ y := by
  simp [sLT, beq_iff_eq]

theorem sLT_trans {x y z : String} (h1 : sLT x y = true) (h2 : sLT y z = true) :
    sLT x z = true := by
  rw [sLT_iff] at h1 h2 ⊢
  refine ⟨sLE_trans h1.1 h2.1, fun he => ?_⟩
  subst he
  exact h2.2 (sLE_antisymm h2.1 h1.1)

theorem sLT_asymm {x y : String} (h1 : sLT x y = true) : sLT y x = false := by
  by_contra h
  rw [Bool.not_eq_false, sLT_iff] at h
  rw [sLT_iff] at h1
  exact h1.2 (sLE_antisymm h1.1 h.1)

/-! ## Dates

`pd.to_datetime(s, errors="coerce")` on the pipeline's `YYYY-MM-DD` filing
dates, embedded as a proleptic-Gregorian day number (Hinnant's civil-days
algorithm, as used by every mainstream date library including pandas). -/

def digitsAux : Nat → Nat → List Char
  | 0, _ => []
  | fuel + 1, n =>
    if n < 10 then [Char.ofNat (48 + n)]
    else digitsAux fuel (n / 10) ++ [Char.ofNat (48 + n % 10)]

def natDigits (n : Nat) : List Char := digitsAux (n + 1) n

def padLeftZeros (w : Nat) (l : List Char) : List Char :=
  List.replicate (w - l.length) '0' ++ l

def parseNatDigits (l : List Char) : Option Nat :=
  if l.isEmpty || !(l.all chIsDigit) then none
  else some (l.foldl (fun acc c => 10 * acc + (c.toNat - 48)) 0)

def isLeap (y : Int) : Bool :=
  y % 4 = 0 && (y % 100 ≠ 0 || y % 400 = 0)

def daysInMonth (y : Int) (m : Nat) : Nat :=
  if m = 2 then (if isLeap y then 29 else 28)
  else if m = 4 || m = 6 || m = 9 || m = 11 then 30
  else 31

def daysFromCivil (y m d : Int) : Int :=
  let y1 := if m ≤ 2 then y - 1 else y
  let era := (if y1 ≥ 0 then y1 else y1 - 399) / 400
  let yoe := y1 - era * 400
  let doy := (153 * (if m > 2 then m - 3 else m + 9) + 2) / 5 + d - 1
  let doe := yoe * 365 + yoe / 4 - yoe / 100 + doy
  era * 146097 + doe - 719468

def civilFromDays (z0 : Int) : Int × Int × Int :=
  let z := z0 + 719468
  let era := (if z ≥ 0 then z else z - 146096) / 146097
  let doe := z - era * 146097
  let yoe := (doe - doe / 1460 + doe / 36524 - doe / 146096) / 365
  let y := yoe + era * 400
  let doy := doe - (365 * yoe + yoe / 4 - yoe / 100)
  let mp := (5 * doy + 2) / 153
  let d := doy - (153 * mp + 2) / 5 + 1
  let m := if mp < 10 then mp + 3 else mp - 9
  (if m ≤ 2 then y + 1 else y, m, d)

def splitCharAux : List Char → Char → List Char → List (List Char)
  | [], _, acc => [acc.reverse]
  | c :: t, sep, acc =>
    if c = sep then acc.reverse :: splitCharAux t sep []
    else splitCharAux t sep (c :: acc)

/-- Parse a `YYYY-MM-DD` string to a day number; `none` models NaT. -/
def parseISODate (s : String) : Option Int :=
  match splitCharAux s.data '-' [] with
  | [ys, ms, ds] =>
    match parseNatDigits ys, parseNatDigits ms, parseNatDigits ds with
    | some y, some m, some d =>
      if 1 ≤ m && m ≤ 12 && 1 ≤ d && d ≤ daysInMonth (y : Int) m then
        some (daysFromCivil (y : Int) (m : Int) (d : Int))
      else none
    | _, _, _ => none
  | _ => none

/-- `strftime("%Y-%m-%d")`. -/
def formatISODate (z : Int) : String :=
  let c := civilFromDays z
  ⟨padLeftZeros 4 (natDigits c.1.toNat) ++ '-' ::
    (padLeftZeros 2 (natDigits c.2.1.toNat) ++ '-' :: padLeftZeros 2 (natDigits c.2.2.toNat))⟩

/-- `utils.date_plus_days`: coerce-parse the ISO date, add `days`, format;
empty string when the date does not parse. -/
def date_plus_days (iso : String) (days : Int) : String :=
  match parseISODate iso with
  | none => ""
  | some z => formatISODate (z + days)

/-! ## Ticker validation -/

/-- `step3._TICKER_STOPWORDS`. -/
def _TICKER_STOPWORDS : List String :=
  ["THE", "AND", "FOR", "WITH", "ETF", "FUND", "RISK", "USD", "MEMBER"]

/-- `step3._valid_ticker`: strip and uppercase the token, require length 1-6,
reject stopwords, require at least one letter. -/
def _valid_ticker (tok : String) : Bool :=
  let t := strUpper (strStrip tok)
  if !(1 ≤ t.data.length && t.data.length ≤ 6) then false
  else if _TICKER_STOPWORDS.contains t then false
  else t.data.any chIsAlpha

/-- `re.fullmatch(r"[A-Z0-9]{1,6}", t)`: the whole acceptance test applied to
the last table/columnar cell in `body_extractors` (already stripped and
uppercased at the call sites). -/
def ticker_cell_fullmatch (t : String) : Bool :=
  1 ≤ t.data.length && t.data.length ≤ 6 &&
    t.data.all (fun c => chIsUpper c || chIsDigit c)

/-! ## Body extraction (`body_extractors.py`)

BeautifulSoup's HTML parse is external-library behaviour: a `<table>` enters
the embedding as the list of its rows' cell texts, and `textify_html`'s plain
text enters as a string. -/

/-- Python `str.splitlines()` (`\n`, `\r`, `\r\n`; no trailing empty line). -/
def splitLinesAux : Nat → List Char → List Char → List (List Char)
  | 0, _, acc => [acc.reverse]
  | _ + 1, [], acc => if acc.isEmpty then [] else [acc.reverse]
  | fuel + 1, c :: t, acc =>
    if c = '\n' then acc.reverse :: splitLinesAux fuel t []
    else if c = '\r' then
      match t with
      | '\n' :: t2 => acc.reverse :: splitLinesAux fuel t2 []
      | _ => acc.reverse :: splitLinesAux fuel t []
    else splitLinesAux fuel t (c :: acc)

def splitLines (l : List Char) : List (List Char) := splitLinesAux (l.length + 1) l []

/-- `re.split(r"\s{2,}", ·)`: split on maximal runs of two or more
whitespace characters (single spaces stay inside a part). -/
def splitRuns2Aux : Nat → List Char → List Char → List (List Char)
  | 0, _, acc => [acc.reverse]
  | _ + 1, [], acc => [acc.reverse]
  | fuel + 1, c :: t, acc =>
    if chIsSpace c then
      match t with
      | c2 :: _ =>
        if chIsSpace c2 then acc.reverse :: splitRuns2Aux fuel (t.dropWhile chIsSpace) []
        else splitRuns2Aux fuel t (c :: acc)
      | [] => splitRuns2Aux fuel t (c :: acc)
    else splitRuns2Aux fuel t (c :: acc)

def splitRuns2 (l : List Char) : List (List Char) := splitRuns2Aux (l.length + 1) l []

/-- Naive substring search (`re.search` for a literal, after lowercasing). -/
def containsSubAux : Nat → List Char → List Char → Bool
  | 0, _, _ => false
  | _ + 1, [], n => n.isEmpty
  | fuel + 1, h :: t, n => n.isPrefixOf (h :: t) || containsSubAux fuel t n

def containsSub (hay needle : List Char) : Bool :=
  containsSubAux (hay.length + 1) hay needle

/-- A fund/series/class mention produced by one extraction strategy (the
dict built by `parse_sgml_series_classes` or `extract_from_html_string`). -/
structure BaseRow where
  seriesId : String := ""
  seriesName : String := ""
  classId : String := ""
  className : String := ""
  classSymbol : String := ""
  extractedFrom : String := ""
deriving DecidableEq, Repr

/-- Header test of `extract_from_html_string`: the joined text of all the
table's cells must mention a name-like term and "ticker" (case-insensitive). -/
def table_header_ok (tbl : List (List String)) : Bool :=
  let ht := (strLower (String.intercalate " " tbl.flatten)).data
  (containsSub ht "fund".data || containsSub ht "series".data ||
      containsSub ht "name".data) &&
    containsSub ht "ticker".data

/-- Per-`<tr>` extraction of `extract_from_html_string`: at least two cells,
last cell stripped/uppercased must fullmatch `[A-Z0-9]{1,6}`; the other
cells joined become the display name. -/
def table_row_extract (cells : List String) : Option BaseRow :=
  if cells.length ≥ 2 then
    let tkr := strUpper (strStrip (cells.getLastD ""))
    if ticker_cell_fullmatch tkr then
      some { className := strStrip (String.intercalate " " cells.dropLast),
             classSymbol := tkr, extractedFrom := "PRIMARY-HTML" }
    else none
  else none

/-- Columnar fallback over one line of plain text (used for both the HTML
plain-text fallback and the PDF text), `body_extractors` lines 71-81 and
101-110: split the stripped line on runs of two or more spaces, validate the
trailing token with the bare `[A-Z0-9]{1,6}` fullmatch. -/
def columnar_line_row (tag : String) (ln : List Char) : Option BaseRow :=
  let parts := splitRuns2 (trimChars ln)
  if parts.length ≥ 2 then
    let tkr := strUpper (strStrip ⟨parts.getLastD []⟩)
    if ticker_cell_fullmatch tkr then
      some { className := ⟨trimChars (List.intercalate [' '] parts.dropLast)⟩,
             classSymbol := tkr, extractedFrom := tag }
    else none
  else none

/-- `body_extractors.extract_from_html_string`: rows from qualifying tables,
falling back to the plain-text columnar scan when no table row validated;
returns the rows together with the plain text. -/
def extract_from_html_string (tables : List (List (List String))) (plain : String) :
    List BaseRow × String :=
  let rows := ((tables.filter table_header_ok).map
    (fun tbl => tbl.filterMap table_row_extract)).flatten
  (if rows.isEmpty then (splitLines plain.data).filterMap (columnar_line_row "PRIMARY-HTML")
   else rows, plain)

/-- `body_extractors.extract_from_primary_pdf`, applied to the text pdfminer
extracted: the same columnar scan with the `PRIMARY-PDF` provenance tag. -/
def extract_from_primary_pdf_text (text : String) : List BaseRow :=
  (splitLines text.data).filterMap (columnar_line_row "PRIMARY-PDF")

/-! ## Extraction rows and the per-filing body of step 3 -/

/-- One extraction row (a row of `{trust}_3_Extracted_Funds.csv`). -/
structure Row where
  seriesId : String := ""
  seriesName : String := ""
  classId : String := ""
  className : String := ""
  classSymbol : String := ""
  form : String := ""
  filingDate : String := ""
  accession : String := ""
  primaryLink : String := ""
  fullTxt : String := ""
  registrant : String := ""
  cik : String := ""
  extractedFrom : String := ""
  effectiveDate : String := ""
  delayingAmendment : String := ""
  prospName : String := ""
deriving DecidableEq, Repr

/-- The filing-level metadata the step-3 loop reads per filing. -/
structure FilingMeta where
  form : String := ""
  filingDate : String := ""
  cik : String := ""
  registrant : String := ""
  accession : String := ""
  primaryLink : String := ""
  fullTxt : String := ""
deriving DecidableEq, Repr

/-- The row-building tail of the per-filing loop of
`step3_extract_for_trust` (step3.py lines 163-191).  The network fetches,
the SGML parser's rows (`sgml.py` is outside the embedded slice), the
regex-derived effective date / delaying flag and the ticker-for-series
resolution over `all_plain_texts` enter as arguments.  Mirroring the call
site exactly, the row list returned by `extract_from_html_string` is bound
and discarded (`_, html_plain = extract_from_primary_html(...)`): only its
plain-text component feeds the (argument) ticker and date scans. -/
def step3_filing_rows (meta : FilingMeta) (sgmlRows : List BaseRow)
    (htmlTables : List (List (List String))) (htmlText : String)
    (tickerFor : String → String × String)
    (effDate : String) (delaying : Bool) : List Row :=
  let hr := extract_from_html_string htmlTables htmlText
  let _htmlRows := hr.1
  if sgmlRows.isEmpty then
    [{ form := meta.form, filingDate := meta.filingDate, accession := meta.accession,
       primaryLink := meta.primaryLink, fullTxt := meta.fullTxt,
       registrant := meta.registrant, cik := meta.cik,
       extractedFrom := "NONE", effectiveDate := effDate,
       delayingAmendment := if delaying then "Y" else "" }]
  else
    sgmlRows.map (fun base =>
      let nm := if base.className ≠ "" then base.className else base.seriesName
      let tk := tickerFor nm
      { seriesId := base.seriesId, seriesName := base.seriesName,
        classId := base.classId, className := base.className,
        classSymbol := if tk.1 ≠ "" then tk.1 else base.classSymbol,
        extractedFrom :=
          if tk.1 ≠ "" then
            (if base.extractedFrom ≠ "" then base.extractedFrom else "SGML-TXT")
              ++ "|" ++ tk.2
          else base.extractedFrom,
        form := meta.form, filingDate := meta.filingDate, accession := meta.accession,
        primaryLink := meta.primaryLink, fullTxt := meta.fullTxt,
        registrant := meta.registrant, cik := meta.cik,
        effectiveDate := effDate,
        delayingAmendment := if delaying then "Y" else "" })

/-! ## `drop_duplicates(keep="last")` -/

section DedupKeepLast

variable {α : Type} {κ : Type} [DecidableEq κ] (key : α → κ)

/-- pandas `drop_duplicates(subset=key, keep="last")`: keep, in position,
the last occurrence of every key. -/
def dedupKeepLast : List α → List α
  | [] => []
  | a :: t =>
    if t.any (fun b => decide (key b = key a)) then dedupKeepLast t
    else a :: dedupKeepLast t

theorem mem_of_mem_dedupKeepLast {a : α} : ∀ {l : List α},
    a ∈ dedupKeepLast key l → a ∈ l := by
  intro l
  induction l with
  | nil => simp [dedupKeepLast]
  | cons x t ih =>
    simp only [dedupKeepLast]
    split
    · exact fun h => List.mem_cons_of_mem _ (ih h)
    · intro h
      rcases List.mem_cons.mp h with h | h
      · exact h ▸ List.mem_cons_self _ _
      · exact List.mem_cons_of_mem _ (ih h)

theorem any_dedupKeepLast (k : κ) : ∀ (l : List α),
    ((dedupKeepLast key l).any fun b => decide (key b = k)) =
      (l.any fun b => decide (key b = k)) := by
  intro l
  induction l with
  | nil => rfl
  | cons x t ih =>
    simp only [dedupKeepLast]
    split
    · rename_i hx
      rw [ih, List.any_cons]
      by_cases hk : key x = k
      · rw [List.any_eq_true] at hx
        rcases hx with ⟨b, hb, hbe⟩
        simp only [decide_eq_true_eq] at hbe
        have : (t.any fun b => decide (key b = k)) = true :=
          List.any_eq_true.mpr ⟨b, hb, by simp [hbe, hk]⟩
        simp [this]
      · simp [hk]
    · simp [List.any_cons, ih]

theorem nodup_keys_dedupKeepLast : ∀ (l : List α),
    ((dedupKeepLast key l).map key).Nodup := by
  intro l
  induction l with
  | nil => exact List.nodup_nil
  | cons x t ih =>
    simp only [dedupKeepLast]
    split
    · exact ih
    · rename_i hx
      refine List.Nodup.cons (fun hmem => hx ?_) ih
      rw [List.mem_map] at hmem
      rcases hmem with ⟨b, hb, hbe⟩
      rw [List.any_eq_true]
      exact ⟨b, mem_of_mem_dedupKeepLast key hb, by simp [hbe]⟩

theorem dedupKeepLast_append : ∀ (l₁ l₂ : List α),
    dedupKeepLast key (l₁ ++ l₂) =
      (dedupKeepLast key l₁).filter
          (fun a => !(l₂.any fun b => decide (key b = key a)))
        ++ dedupKeepLast key l₂ := by
  intro l₁ l₂
  induction l₁ with
  | nil => simp [dedupKeepLast]
  | cons x t ih =>
    simp only [List.cons_append, dedupKeepLast, List.append_eq, List.any_append]
    by_cases ht : (t.any fun b => decide (key b = key x)) = true
    · simp only [ht, Bool.true_or, if_true, ih]
    · by_cases h2 : (l₂.any fun b => decide (key b = key x)) = true
      · simp only [ht, h2, Bool.false_or, if_true, ih, if_false,
          Bool.false_eq_true, List.filter_cons]
        simp [h2]
      · simp only [ht, h2, Bool.or_self, Bool.false_eq_true, if_false, ih,
          List.filter_cons]
        simp [ht, h2]

theorem dedupKeepLast_idem : ∀ (l : List α),
    dedupKeepLast key (dedupKeepLast key l) = dedupKeepLast key l := by
  intro l
  induction l with
  | nil => rfl
  | cons x t ih =>
    simp only [dedupKeepLast]
    split
    · exact ih
    · rename_i hx
      simp only [dedupKeepLast, any_dedupKeepLast, if_neg hx, ih]

theorem filter_key_dedupKeepLast (k : κ) : ∀ (l : List α),
    (dedupKeepLast key l).filter (fun a => decide (key a = k)) =
      (l.reverse.find? fun a => decide (key a = k)).toList := by
  intro l
  induction l with
  | nil => rfl
  | cons x t ih =>
    simp only [List.reverse_cons, List.find?_append, dedupKeepLast]
    by_cases ht : (t.any fun b => decide (key b = key x)) = true
    · rw [if_pos ht, ih]
      by_cases hk : key x = k
      · have hsome : (t.reverse.find? fun a => decide (key a = k)).isSome := by
          rw [List.find?_isSome]
          rw [List.any_eq_true] at ht
          rcases ht with ⟨b, hb, hbe⟩
          simp only [decide_eq_true_eq] at hbe
          exact ⟨b, List.mem_reverse.mpr hb, by simp [hbe, hk]⟩
        rcases Option.isSome_iff_exists.mp hsome with ⟨v, hv⟩
        simp [hv]
      · have hx1 : (List.find? (fun a => decide (key a = k)) [x]) = none := by
          simp [List.find?, hk]
        simp [hx1]
    · rw [if_neg ht, List.filter_cons, ih]
      by_cases hk : key x = k
      · have hnone : (t.reverse.find? fun a => decide (key a = k)) = none := by
          rw [List.find?_eq_none]
          intro b hb
          simp only [decide_eq_true_eq]
          intro hbe
          exact ht (List.any_eq_true.mpr ⟨b, List.mem_reverse.mp hb, by simp [hbe, hk]⟩)
        simp [hk, hnone, List.find?]
      · have hx1 : (List.find? (fun a => decide (key a = k)) [x]) = none := by
          simp [List.find?, hk]
        simp [hk, hx1]

end DedupKeepLast

/-- The dedup key of the accumulated extraction CSV: the tuple
(Accession Number, Class-Contract ID, Class Contract Name, Class Symbol). -/
def rowKey (r : Row) : String × String × String × String :=
  (r.accession, r.classId, r.className, r.classSymbol)

/-- Modelled from the spec: `csvio.append_dedupe_csv` (the module
`csvio.py` is not in the source tree; step3.py calls it with
`key_cols=["Accession Number","Class-Contract ID","Class Contract Name",
"Class Symbol"]`).  Per the spec, extraction rows are append-only with
last-write-wins on that key: the new rows are appended to the accumulated
set and duplicate keys are collapsed keeping the last-written row. -/
def append_dedupe_csv (existing newRows : List Row) : List Row :=
  dedupKeepLast rowKey (existing ++ newRows)

/-- The in-frame `__key` of step3.py lines 202-207. -/
def step3_frame_key (r : Row) : String :=
  r.accession ++ "|" ++ r.classId ++ "|" ++ r.className ++ "|" ++ r.classSymbol

/-- The in-frame dedup of step3.py line 208. -/
def step3_frame_dedup (rows : List Row) : List Row :=
  dedupKeepLast step3_frame_key rows

/-! ## Step 4: the rollup (`step4.py`) -/

/-- `FormU` (step4.py line 13). -/
def formU (r : Row) : String := strUpper r.form

/-- `TickerU` (step4.py line 14). -/
def tickerU (r : Row) : String := strUpper r.classSymbol

/-- `Display Name Raw` (step4.py lines 16-18). -/
def dispRaw (r : Row) : String :=
  if r.className ≠ "" then r.className else r.seriesName

/-- `Display Name Clean`. -/
def dispClean (r : Row) : String := clean_fund_name_for_rollup (dispRaw r)

/-- `Display Name Key` (casefolded clean name). -/
def dispKey (r : Row) : String := strLower (dispClean r)

/-- The grouping key `__gkey` (step4.py lines 26-28): class-contract id,
else series id, else display-name key plus ticker. -/
def gkey (r : Row) : String :=
  if r.classId ≠ "" then "C:" ++ r.classId
  else if r.seriesId ≠ "" then "S:" ++ r.seriesId
  else dispKey r ++ "|T:" ++ tickerU r

/-- `_fdt`: the coerce-parsed filing date. -/
def fdt (r : Row) : Option Int := parseISODate r.filingDate

/-- Ascending comparison on parsed dates with NaT last
(pandas `na_position="last"`). -/
def odLE : Option Int → Option Int → Bool
  | some a, some b => decide (a ≤ b)
  | some _, none => true
  | none, some _ => false
  | none, none => true

def odLT (x y : Option Int) : Bool := odLE x y && !(x == y)

theorem odLE_total (x y : Option Int) : odLE x y = true ∨ odLE y x = true := by
  cases x <;> cases y <;> simp [odLE] ; omega

theorem odLE_trans {x y z : Option Int} (h1 : odLE x y = true) (h2 : odLE y z = true) :
    odLE x z = true := by
  cases x <;> cases y <;> cases z <;> simp_all [odLE] ; omega

theorem odLE_antisymm {x y : Option Int} (h1 : odLE x y = true) (h2 : odLE y x = true) :
    x = y := by
  cases x <;> cases y <;> simp_all [odLE] ; omega

theorem odLE_ne_lt {x y : Option Int} (h1 : odLE x y = true) (h2 : x ≠ y) :
    odLT x y = true := by
  simp [odLT, h1, h2]

theorem odLT_asymm {x y : Option Int} (h1 : odLT x y = true) (h2 : odLT y x = true) :
    False := by
  simp only [odLT, Bool.and_eq_true, Bool.not_eq_true', beq_eq_false_iff_ne, ne_eq] at h1 h2
  exact h1.2 (odLE_antisymm h1.1 h2.1)

/-- `sort_values("_fdt", kind="stable")` relation. -/
def dateLEP (a b : Row) : Prop := odLE (fdt a) (fdt b) = true

instance : DecidableRel dateLEP := fun a b =>
  inferInstanceAs (Decidable (odLE (fdt a) (fdt b) = true))

instance : IsTotal Row dateLEP := ⟨fun a b => odLE_total (fdt a) (fdt b)⟩

instance : IsTrans Row dateLEP := ⟨fun _ _ _ => odLE_trans⟩

/-- The strict date relation, used to show a date-sorted group with
pairwise-distinct parsed dates is unique. -/
def dateLTP (a b : Row) : Prop := odLT (fdt a) (fdt b) = true

instance : IsAntisymm Row dateLTP :=
  ⟨fun _ _ h1 h2 => absurd (odLT_asymm h1 h2) (fun h => h)⟩

/-- `gg = g.sort_values("_fdt", kind="stable")`: stable ascending sort on
the parsed filing date (insertion sort is stable). -/
def sortByDate (g : List Row) : List Row := List.insertionSort dateLEP g

/-- One row of `{trust}_4_Latest_Record.csv`. -/
structure FundStatus where
  fundKey : String := ""
  registrant : String := ""
  cik : String := ""
  canonical : String := ""
  ticker : String := ""
  firstSeenDate : String := ""
  firstSeenForm : String := ""
  firstSeenLink : String := ""
  aposDate : String := ""
  aposLink : String := ""
  bposDate : String := ""
  bposLink : String := ""
  s497Date : String := ""
  s497Link : String := ""
  lpForm : String := ""
  lpDate : String := ""
  lpEff : String := ""
  lpLink : String := ""
  lpSrc : String := ""
  status : String := ""
deriving DecidableEq, Repr

/-- `_latest_nonempty` (step4.py lines 30-32): last non-empty value of the
projected column. -/
def _latest_nonempty (f : Row → String) (l : List Row) : String :=
  match (l.filter fun r => decide (f r ≠ "")).getLast? with
  | some r => f r
  | none => ""

def is485B (r : Row) : Bool := strStartsWith (formU r) "485B"

def is485A (r : Row) : Bool := strStartsWith (formU r) "485A"

def is497 (r : Row) : Bool := strStartsWith (formU r) "497"

/-- The "Effective Date" value `_pick_latest` actually sees.  Step 4 reads
the extraction CSV with `pd.read_csv(p3, dtype=str)` and, unlike the other
columns it touches (which get `fillna("")`), never fills this one: an
empty cell is NaN (`none` here); a written date survives as its string. -/
def effCell (r : Row) : Option String :=
  if r.effectiveDate = "" then none else some r.effectiveDate

/-- Python truthiness of that cell value: NaN is a float and is TRUTHY;
only an empty string would be falsy, and `read_csv` never produces one
(empty fields become NaN). -/
def truthyCell : Option String → Bool
  | none => true
  | some s => decide (s ≠ "")

/-- The string the cell value contributes to the output CSV: `to_csv`
serialises NaN as an empty field. -/
def renderCell : Option String → String
  | none => ""
  | some s => s

/-- The branch of `_pick_latest` choosing the latest prospectus
(step4.py lines 42-55).  `eff_parsed` is
`row.get("Effective Date","") or row.get("Effective Date (derived)","")`
(the step-3 CSV has no "Effective Date (derived)" column, so the second
`get` yields the falsy default): with a missing date the first `get`
returns truthy NaN, so `eff_parsed` is truthy in every reachable case and
the `else` fallbacks (`lp_date`, `date_plus_days(lp_date, 75)`, the
`(eff=+75d)` status) are never taken. -/
structure MainSel where
  lpForm : String
  lpDate : String
  lpLink : String
  lpEff : String
  lpSrc : String
  status : String
deriving DecidableEq, Repr

def main_selection (latestB latestA latestS : Option Row) : MainSel :=
  match latestB with
  | some row =>
    { lpForm := row.form, lpDate := row.filingDate, lpLink := row.primaryLink,
      lpEff := if truthyCell (effCell row) then renderCell (effCell row)
               else row.filingDate,
      lpSrc := "485B", status := "BPOS chosen" }
  | none =>
    match latestA with
    | some row =>
      { lpForm := row.form, lpDate := row.filingDate, lpLink := row.primaryLink,
        lpEff := if truthyCell (effCell row) then renderCell (effCell row)
                 else date_plus_days row.filingDate 75,
        lpSrc := "485A",
        status := if truthyCell (effCell row) then "APOS chosen (eff=parsed)"
                  else "APOS chosen (eff=+75d)" }
    | none =>
      { lpForm := "", lpDate := "", lpLink := "", lpEff := "", lpSrc := "",
        status := if latestS.isSome then "Supplements only"
                  else "No prospectus form found" }

/-- `_pick_latest` applied to the already-sorted group `gg`. -/
def pick_from_sorted (key : String) (gg : List Row) : FundStatus :=
  let latestB := (gg.filter is485B).getLast?
  let latestA := (gg.filter is485A).getLast?
  let latestS := (gg.filter is497).getLast?
  let first := gg.head?
  let m := main_selection latestB latestA latestS
  { fundKey := key,
    registrant := _latest_nonempty (fun r => r.registrant) gg,
    cik := _latest_nonempty (fun r => r.cik) gg,
    canonical := titlecase_safe (_latest_nonempty dispClean gg),
    ticker := _latest_nonempty tickerU gg,
    firstSeenDate := (first.map (fun r => r.filingDate)).getD "",
    firstSeenForm := (first.map (fun r => r.form)).getD "",
    firstSeenLink := (first.map (fun r => r.primaryLink)).getD "",
    aposDate := (latestA.map (fun r => r.filingDate)).getD "",
    aposLink := (latestA.map (fun r => r.primaryLink)).getD "",
    bposDate := (latestB.map (fun r => r.filingDate)).getD "",
    bposLink := (latestB.map (fun r => r.primaryLink)).getD "",
    s497Date := (latestS.map (fun r => r.filingDate)).getD "",
    s497Link := (latestS.map (fun r => r.primaryLink)).getD "",
    lpForm := m.lpForm, lpDate := m.lpDate, lpEff := m.lpEff,
    lpLink := m.lpLink, lpSrc := m.lpSrc, status := m.status }

/-- `_pick_latest` (step4.py lines 34-95). -/
def pick_latest (key : String) (g : List Row) : FundStatus :=
  pick_from_sorted key (sortByDate g)

/-- The final sort (step4.py line 98): Registrant ascending, Canonical Fund
Name ascending, Latest Prospectus Date descending. -/
def fsLE (a b : FundStatus) : Bool :=
  if a.registrant = b.registrant then
    (if a.canonical = b.canonical then sLE b.lpDate a.lpDate
     else sLT a.canonical b.canonical)
  else sLT a.registrant b.registrant

def fsLEP (a b : FundStatus) : Prop := fsLE a b = true

instance : DecidableRel fsLEP := fun a b =>
  inferInstanceAs (Decidable (fsLE a b = true))

theorem sLT_of_ne_of_total {x y : String} (hne : x ≠ y) :
    sLT x y = true ∨ sLT y x = true := by
  rcases sLE_total x y with h | h
  · exact Or.inl (sLT_iff.mpr ⟨h, hne⟩)
  · exact Or.inr (sLT_iff.mpr ⟨h, Ne.symm hne⟩)

instance : IsTotal FundStatus fsLEP := by
  refine ⟨fun a b => ?_⟩
  unfold fsLEP fsLE
  by_cases hr : a.registrant = b.registrant
  · rw [if_pos hr, if_pos hr.symm]
    by_cases hc : a.canonical = b.canonical
    · rw [if_pos hc, if_pos hc.symm]
      exact (sLE_total b.lpDate a.lpDate).imp id id
    · rw [if_neg hc, if_neg (Ne.symm hc)]
      exact sLT_of_ne_of_total hc
  · rw [if_neg hr, if_neg (Ne.symm hr)]
    exact sLT_of_ne_of_total hr

instance : IsTrans FundStatus fsLEP := by
  refine ⟨fun a b c h1 h2 => ?_⟩
  unfold fsLEP fsLE at h1 h2 ⊢
  by_cases hab : a.registrant = b.registrant
  · by_cases hbc : b.registrant = c.registrant
    · have hac : a.registrant = c.registrant := hab.trans hbc
      rw [if_pos hab] at h1
      rw [if_pos hbc] at h2
      rw [if_pos hac]
      by_cases hcab : a.canonical = b.canonical
      · by_cases hcbc : b.canonical = c.canonical
        · have hcac : a.canonical = c.canonical := hcab.trans hcbc
          rw [if_pos hcab] at h1
          rw [if_pos hcbc] at h2
          rw [if_pos hcac]
          exact sLE_trans h2 h1
        · have hcac : a.canonical ≠ c.canonical := hcab ▸ hcbc
          rw [if_neg hcbc] at h2
          rw [if_neg hcac]
          exact hcab ▸ h2
      · by_cases hcbc : b.canonical = c.canonical
        · have hcac : a.canonical ≠ c.canonical := fun h => hcab (h.trans hcbc.symm)
          rw [if_neg hcab] at h1
          rw [if_neg hcac]
          exact hcbc ▸ h1
        · rw [if_neg hcab] at h1
          rw [if_neg hcbc] at h2
          by_cases hcac : a.canonical = c.canonical
          · exfalso
            have := sLT_trans h1 h2
            rw [hcac] at this
            exact (sLT_iff.mp this).2 rfl
          · rw [if_neg hcac]
            exact sLT_trans h1 h2
    · have hac : a.registrant ≠ c.registrant := hab ▸ hbc
      rw [if_neg hbc] at h2
      rw [if_neg hac]
      exact hab ▸ h2
  · by_cases hbc : b.registrant = c.registrant
    · have hac : a.registrant ≠ c.registrant := fun h => hab (h.trans hbc.symm)
      rw [if_neg hab] at h1
      rw [if_neg hac]
      exact hbc ▸ h1
    · rw [if_neg hab] at h1
      rw [if_neg hbc] at h2
      by_cases hac : a.registrant = c.registrant
      · exfalso
        have := sLT_trans h1 h2
        rw [hac] at this
        exact (sLT_iff.mp this).2 rfl
      · rw [if_neg hac]
        exact sLT_trans h1 h2

/-- `_name_key`/`_tkr_key` (step4.py lines 99-100): casefolded canonical
name and uppercased ticker. -/
def collKey (fs : FundStatus) : String × String :=
  (strLower fs.canonical, strUpper fs.ticker)

def final_sort (l : List FundStatus) : List FundStatus := List.insertionSort fsLEP l

/-- The final cross-group dedup pass (step4.py lines 98-101): sort, then
`drop_duplicates(subset=["_name_key","_tkr_key"], keep="last")`. -/
def final_dedup (l : List FundStatus) : List FundStatus :=
  dedupKeepLast collKey (final_sort l)

def sLEP (a b : String) : Prop := sLE a b = true

instance : DecidableRel sLEP := fun a b =>
  inferInstanceAs (Decidable (sLE a b = true))

instance : IsTotal String sLEP := ⟨fun a b => sLE_total a b⟩

instance : IsTrans String sLEP := ⟨fun _ _ _ => sLE_trans⟩

instance : IsAntisymm String sLEP := ⟨fun _ _ => sLE_antisymm⟩

/-- pandas `groupby(sort=True)`: the distinct group keys in ascending
order. -/
def groupKeys (l : List Row) : List String :=
  (List.insertionSort sLEP (l.map gkey)).dedup

/-- The rollup core of `step4_rollup_for_trust` (step4.py lines 97-101):
group by `__gkey` (keys ascending, within-group order preserved), pick the
latest record per group, sort, and dedup on (name key, ticker key). -/
def rollup (l : List Row) : List FundStatus :=
  let roll := (groupKeys l).map
    (fun k => pick_latest k (l.filter fun r => decide (gkey r = k)))
  final_dedup roll

/-! ## Step 5: the name history (`step5.py`) -/

/-- `_name` (step5.py lines 50-51): class-contract name, else series name. -/
def nhName (r : Row) : String :=
  if r.className ≠ "" then r.className else r.seriesName

/-- The value of one `seen_names` entry.  The dict's optional `"source"`
key (`info.get("source", "SGML")` at output time) is made an explicit
field set at creation. -/
structure NHInfo where
  name : String
  firstDate : String
  lastDate : String
  firstForm : String
  firstAcc : String
  source : String
deriving DecidableEq, Repr

/-- `seen_names`: a Python dict in insertion order. -/
abbrev SeenMap := List (String × NHInfo)

def seenHasKey (m : SeenMap) (k : String) : Bool := m.any fun p => decide (p.1 = k)

def seenUpdateLast (m : SeenMap) (k d : String) : SeenMap :=
  m.map fun p => if p.1 = k then (p.1, { p.2 with lastDate := d }) else p

/-- The first block of the per-row walk (step5.py lines 84-94): first
occurrence of the name key creates an entry, later occurrences only update
`last_date`. -/
def step5_visit_name (m : SeenMap) (r : Row) : SeenMap :=
  if strLower (clean_fund_name_for_rollup (nhName r)) ≠ "" && nhName r ≠ "" then
    if seenHasKey m (strLower (clean_fund_name_for_rollup (nhName r))) then
      seenUpdateLast m (strLower (clean_fund_name_for_rollup (nhName r))) r.filingDate
    else m ++ [(strLower (clean_fund_name_for_rollup (nhName r)),
      { name := nhName r, firstDate := r.filingDate,
        lastDate := r.filingDate, firstForm := r.form,
        firstAcc := r.accession, source := "SGML" })]
  else m

/-- The second block (step5.py lines 96-111): prospectus-sourced names are
tracked the same way, tagged `PROSPECTUS`. -/
def step5_visit_prosp (m1 : SeenMap) (r : Row) : SeenMap :=
  if clean_fund_name_for_rollup r.prospName ≠ "" && r.prospName ≠ "" then
    if strLower (clean_fund_name_for_rollup r.prospName) ≠ "" &&
        !(seenHasKey m1 (strLower (clean_fund_name_for_rollup r.prospName))) then
      m1 ++ [(strLower (clean_fund_name_for_rollup r.prospName),
        { name := r.prospName, firstDate := r.filingDate,
          lastDate := r.filingDate, firstForm := r.form,
          firstAcc := r.accession, source := "PROSPECTUS" })]
    else if seenHasKey m1 (strLower (clean_fund_name_for_rollup r.prospName)) then
      seenUpdateLast m1 (strLower (clean_fund_name_for_rollup r.prospName)) r.filingDate
    else m1
  else m1

/-- The body of the per-row walk (step5.py lines 77-111). -/
def step5_visit (m : SeenMap) (r : Row) : SeenMap :=
  step5_visit_prosp (step5_visit_name m r) r

/-- `max(seen_names.keys(), key=lambda k: seen_names[k]["last_date"])`:
Python's `max` iterates in insertion order and keeps the first of equal
maxima (it replaces only on a strictly greater key). -/
def lkStep (best q : String × NHInfo) : String × NHInfo :=
  if sLT best.2.lastDate q.2.lastDate = true then q else best

def latestKey (m : SeenMap) : String :=
  match m with
  | [] => ""
  | p :: rest => (rest.foldl lkStep p).1

/-- One row of `{trust}_5_Name_History.csv`. -/
structure NHEntry where
  seriesId : String := ""
  name : String := ""
  nameClean : String := ""
  firstSeen : String := ""
  lastSeen : String := ""
  isCurrent : String := ""
  sourceForm : String := ""
  sourceAcc : String := ""
  nameSource : String := ""
deriving DecidableEq, Repr

/-- The per-series block (step5.py lines 68-131): walk the date-sorted
rows, then flag the entry with the latest `last_date` current, clearing its
last-seen date; all other entries keep their `last_date`. -/
def series_history (sid : String) (g : List Row) : List NHEntry :=
  let gg := sortByDate g
  let seen := gg.foldl step5_visit []
  if seen.isEmpty then []
  else
    let lk := latestKey seen
    seen.map fun p =>
      { seriesId := sid, name := p.2.name,
        nameClean := clean_fund_name_for_rollup p.2.name,
        firstSeen := p.2.firstDate,
        lastSeen := if p.1 = lk then "" else p.2.lastDate,
        isCurrent := if p.1 = lk then "Y" else "",
        sourceForm := p.2.firstForm, sourceAcc := p.2.firstAcc,
        nameSource := p.2.source }

/-- The final sort of the history rows (step5.py line 139): Series ID
ascending, First Seen Date ascending. -/
def nhLE (a b : NHEntry) : Bool :=
  if a.seriesId = b.seriesId then sLE a.firstSeen b.firstSeen
  else sLT a.seriesId b.seriesId

def nhLEP (a b : NHEntry) : Prop := nhLE a b = true

instance : DecidableRel nhLEP := fun a b =>
  inferInstanceAs (Decidable (nhLE a b = true))

instance : IsTotal NHEntry nhLEP := by
  refine ⟨fun a b => ?_⟩
  unfold nhLEP nhLE
  by_cases hs : a.seriesId = b.seriesId
  · rw [if_pos hs, if_pos hs.symm]
    exact (sLE_total a.firstSeen b.firstSeen).imp id id
  · rw [if_neg hs, if_neg (Ne.symm hs)]
    exact sLT_of_ne_of_total hs

instance : IsTrans NHEntry nhLEP := by
  refine ⟨fun a b c h1 h2 => ?_⟩
  unfold nhLEP nhLE at h1 h2 ⊢
  by_cases hab : a.seriesId = b.seriesId
  · by_cases hbc : b.seriesId = c.seriesId
    · rw [if_pos hab] at h1
      rw [if_pos hbc] at h2
      rw [if_pos (hab.trans hbc)]
      exact sLE_trans h1 h2
    · rw [if_neg hbc] at h2
      rw [if_neg (hab ▸ hbc)]
      exact hab ▸ h2
  · by_cases hbc : b.seriesId = c.seriesId
    · rw [if_neg hab] at h1
      rw [if_neg (fun h => hab (h.trans hbc.symm))]
      exact hbc ▸ h1
    · rw [if_neg hab] at h1
      rw [if_neg hbc] at h2
      by_cases hac : a.seriesId = c.seriesId
      · exfalso
        have := sLT_trans h1 h2
        rw [hac] at this
        exact (sLT_iff.mp this).2 rfl
      · rw [if_neg hac]
        exact sLT_trans h1 h2

/-- One `groupby("Series ID")` group over the date-sorted frame: the rows
with the given series id, in frame order. -/
def seriesGroup (rows : List Row) (sid : String) : List Row :=
  (sortByDate rows).filter fun r => decide (r.seriesId = sid)

/-- The core of `step5_name_history_for_trust` (step5.py lines 46-141):
global date sort, group by Series ID (keys ascending, empty skipped), build
each series' history, final sort. -/
def step5_name_history (rows : List Row) : List NHEntry :=
  let df := sortByDate rows
  let keys := (List.insertionSort sLEP (df.map fun r => r.seriesId)).dedup
  let hist := keys.flatMap fun sid =>
    if sid = "" then []
    else series_history sid (seriesGroup rows sid)
  List.insertionSort nhLEP hist

/-! ## The async client (`async_client.py`) -/

/-- One HTTP response in a server trace. -/
inductive Resp
  | tooMany (retryAfter : Nat)
  | ok (body : String)
  | httpError (code : Nat)
deriving DecidableEq, Repr

/-- `AsyncSECClient._fetch_url` as a function of the successive responses
the server gives to the repeated request (lines 131-146): a 429 reads
Retry-After, sleeps, and recurses, consuming the next response; a success
returns the body; any other error status raises (`raise_for_status`).
`none` means the finite trace was exhausted with the client still
retrying — the recursion has no retry counter. -/
def fetch_url : List Resp → Option (Except Nat String)
  | [] => none
  | .tooMany _ :: rest => fetch_url rest
  | .ok b :: _ => some (.ok b)
  | .httpError c :: _ => some (.error c)

/-- `f"{int(str(cik)):010d}"` (line 196). -/
def padCik (cik : Nat) : String := ⟨padLeftZeros 10 (natDigits cik)⟩

/-- `SEC_SUBMISSIONS_URL.replace("{CIK_PADDED}", padded)` (line 197). -/
def subsUrl (padded : String) : String :=
  "https://data.sec.gov/submissions/CIK" ++ padded ++ ".json"

/-- The per-CIK behaviour inside `fetch_submissions_batch` (lines 202-237):
serve fresh cache hits; otherwise fetch, and on success validate with
`json.loads` before caching — a parse failure (or a fetch error) is caught
per task and recorded as `None`, with no cache write.  `fetch` abstracts
`_fetch_url`'s outcome per URL, `isJson` whether `json.loads` succeeds,
`cache` the fresh-cache lookup `_read_submissions_cache`. -/
def submissions_step (fetch : String → Except Nat String) (isJson : String → Bool)
    (cache : String → Option String) (cik : Nat) :
    (Nat × Option String) × List (String × String) :=
  match cache (padCik cik) with
  | some c => ((cik, some c), [])
  | none =>
    match fetch (subsUrl (padCik cik)) with
    | .ok content =>
      if isJson content then ((cik, some content), [(padCik cik, content)])
      else ((cik, none), [])
    | .error _ => ((cik, none), [])

/-- `AsyncSECClient.fetch_submissions_batch`: the per-key result map (as an
association list over the requested CIKs) and the submissions-cache writes
performed. -/
def fetch_submissions_batch (fetch : String → Except Nat String)
    (isJson : String → Bool) (cache : String → Option String) (ciks : List Nat) :
    List (Nat × Option String) × List (String × String) :=
  (ciks.map fun c => (submissions_step fetch isJson cache c).1,
   ciks.flatMap fun c => (submissions_step fetch isJson cache c).2)

/-! ## Auxiliary lemmas -/

theorem mem_of_getLast?_eq {α : Type} {l : List α} {a : α}
    (h : l.getLast? = some a) : a ∈ l := by
  induction l with
  | nil => simp at h
  | cons x t ih =>
    cases t with
    | nil =>
      simp only [List.getLast?_singleton, Option.some.injEq] at h
      simp [h]
    | cons y u =>
      rw [List.getLast?_cons_cons] at h
      exact List.mem_cons_of_mem _ (ih h)

theorem prefix_485B_not_485A {cs : List Char}
    (h : ("485B".data.isPrefixOf cs) = true) : ("485A".data.isPrefixOf cs) = false := by
  have hB : "485B".data = ['4', '8', '5', 'B'] := by decide
  have hA : "485A".data = ['4', '8', '5', 'A'] := by decide
  rw [hB, List.isPrefixOf_iff_prefix] at h
  obtain ⟨t1, ht1⟩ := h
  by_contra hfalse
  rw [Bool.not_eq_false, hA, List.isPrefixOf_iff_prefix, ← ht1] at hfalse
  simp only [List.cons_append, List.nil_append, List.cons_prefix_cons] at hfalse
  exact absurd hfalse.2.2.2.1 (by decide)

theorem is485A_eq_false_of_is485B {r : Row} (h : is485B r = true) :
    is485A r = false :=
  prefix_485B_not_485A h

/-! ## Claim C5 -/

/-- C5: the claim states the 429 retry is bounded — one retry, a second
429 propagating as an error.  In `_fetch_url` the 429 branch recurses with
no retry counter, so every 429 triggers a further attempt: with responses
(429, 429, 200) the third attempt is made and its body returned, and a
server answering 429 forever is retried forever — no error is ever
produced.  This contradicts the claim and the code's own `# Retry once`
comment. -/
theorem c5_unbounded_retry_eval :
    fetch_url [.tooMany 10, .tooMany 10, .ok "body"] = some (.ok "body") ∧
    (∀ n : Nat, fetch_url (List.replicate n (.tooMany 10)) = none) := by
  refine ⟨rfl, fun n => ?_⟩
  induction n with
  | zero => rfl
  | succ m ih => simpa [List.replicate_succ, fetch_url] using ih

/-! ## Claim C10 -/

/-- C10: in the batch submissions fetch, a CIK whose fetch succeeds but
whose body does not parse as JSON gets result entry `None` and no cache
write; only JSON-parseable bodies are ever written to the submissions
cache; and any other CIK in the batch with a fresh fetch of valid JSON
still gets its content in the result map. -/
theorem c10_json_failure_isolated
    (fetch : String → Except Nat String) (isJson : String → Bool)
    (cache : String → Option String) (ciks : List Nat) (cik : Nat)
    (hmem : cik ∈ ciks)
    (hmiss : cache (padCik cik) = none)
    (hbad : ∀ s, fetch (subsUrl (padCik cik)) = Except.ok s → isJson s = false) :
    ((cik, (none : Option String)) ∈
        (fetch_submissions_batch fetch isJson cache ciks).1) ∧
    (∀ c, (padCik cik, c) ∉ (fetch_submissions_batch fetch isJson cache ciks).2) ∧
    (∀ p c, (p, c) ∈ (fetch_submissions_batch fetch isJson cache ciks).2 →
      isJson c = true) ∧
    (∀ cik' s', cik' ∈ ciks → cache (padCik cik') = none →
      fetch (subsUrl (padCik cik')) = Except.ok s' → isJson s' = true →
      (cik', some s') ∈ (fetch_submissions_batch fetch isJson cache ciks).1) := by
  have hwrites : ∀ c' p c, (p, c) ∈ (submissions_step fetch isJson cache c').2 →
      p = padCik c' ∧ isJson c = true ∧
        fetch (subsUrl (padCik c')) = Except.ok c ∧ cache (padCik c') = none := by
    intro c' p c hpc
    unfold submissions_step at hpc
    rcases hc : cache (padCik c') with _ | v
    · rw [hc] at hpc
      rcases hf : fetch (subsUrl (padCik c')) with e | s
      · rw [hf] at hpc
        simp at hpc
      · rw [hf] at hpc
        by_cases hj : isJson s = true
        · simp only [hj, if_true, List.mem_singleton, Prod.mk.injEq] at hpc
          rcases hpc with ⟨hp1, hp2⟩
          subst hp2
          exact ⟨hp1, hj, rfl, rfl⟩
        · simp [hj] at hpc
    · rw [hc] at hpc
      simp at hpc
  refine ⟨?_, ?_, ?_, ?_⟩
  · refine List.mem_map.mpr ⟨cik, hmem, ?_⟩
    unfold submissions_step
    rw [hmiss]
    rcases hf : fetch (subsUrl (padCik cik)) with e | s
    · rfl
    · simp [hbad s hf]
  · intro c hc
    simp only [fetch_submissions_batch] at hc
    rw [List.mem_flatMap] at hc
    rcases hc with ⟨c', _, hcmem⟩
    rcases hwrites c' _ _ hcmem with ⟨hpad, hj, hf, _⟩
    rw [← hpad] at hf
    exact absurd (hbad c hf) (by simp [hj])
  · intro p c hc
    simp only [fetch_submissions_batch] at hc
    rw [List.mem_flatMap] at hc
    rcases hc with ⟨c', _, hcmem⟩
    exact (hwrites c' _ _ hcmem).2.1
  · intro cik' s' hmem' hmiss' hok hjson
    refine List.mem_map.mpr ⟨cik', hmem', ?_⟩
    unfold submissions_step
    rw [hmiss', hok]
    simp [hjson]

/-- C10 witness: a two-CIK batch where the first CIK's body is not JSON
and the second's is. -/
theorem c10_witness :
    (7 : Nat) ∈ [7, 8] ∧
    ((7, (none : Option String)) ∈
      (fetch_submissions_batch
        (fun u => if u = subsUrl (padCik 7) then Except.ok "not json"
                  else Except.ok "{}")
        (fun s => s = "{}") (fun _ => none) [7, 8]).1) ∧
    ((8, some "{}") ∈
      (fetch_submissions_batch
        (fun u => if u = subsUrl (padCik 7) then Except.ok "not json"
                  else Except.ok "{}")
        (fun s => s = "{}") (fun _ => none) [7, 8]).1) := by
  refine ⟨by decide, ?_, ?_⟩
  · exact (c10_json_failure_isolated
      (fun u => if u = subsUrl (padCik 7) then Except.ok "not json" else Except.ok "{}")
      (fun s => decide (s = "{}")) (fun _ => none) [7, 8] 7
      (by decide) rfl (by intro s hs; simp at hs; simp [← hs])).1
  · exact (c10_json_failure_isolated
      (fun u => if u = subsUrl (padCik 7) then Except.ok "not json" else Except.ok "{}")
      (fun s => decide (s = "{}")) (fun _ => none) [7, 8] 7
      (by decide) rfl (by intro s hs; simp at hs; simp [← hs])).2.2.2
      8 "{}" (by decide) rfl (by simp; decide) (by decide)

/-! ## Claim C7 -/

/-- C7 counterexample: the claim says every ticker-acceptance site rejects
"ETF".  The HTML-table strategy's last-cell validation is the bare
`re.fullmatch(r"[A-Z0-9]{1,6}", ...)` with no letter requirement and no
stopword list, so a table row ending in "ETF" is accepted there, while
`_valid_ticker` (the validator the claim describes) rejects it. -/
theorem c7_counterexample :
    (extract_from_html_string
        [[["Fund Name", "Ticker Symbol"], ["Spartan Metals Fund", "ETF"]]] "").1.map
        (fun b => b.classSymbol) = ["ETF"] ∧
    _valid_ticker "ETF" = false := by decide

theorem valid_ticker_eq_conj (tok : String) :
    _valid_ticker tok =
      ((decide (1 ≤ (strUpper (strStrip tok)).data.length) &&
        decide ((strUpper (strStrip tok)).data.length ≤ 6)) &&
       !(_TICKER_STOPWORDS.contains (strUpper (strStrip tok))) &&
       (strUpper (strStrip tok)).data.any chIsAlpha) := by
  simp only [_valid_ticker]
  cases hb1 : decide (1 ≤ (strUpper (strStrip tok)).data.length) <;>
    cases hb2 : decide ((strUpper (strStrip tok)).data.length ≤ 6) <;>
      cases hb3 : _TICKER_STOPWORDS.contains (strUpper (strStrip tok)) <;>
        simp [hb1, hb2, hb3]

/-- C7 amended: `_valid_ticker` (used by the ticker-for-series resolution,
both for the title-parenthetical and the label-window candidates) accepts a
token iff its stripped uppercased form has length 1-6, contains at least
one letter and is not a stopword ("ETF" rejected, "SCCO" accepted); the
last-cell validation of the HTML-table and plain-text columnar strategies
instead accepts exactly the tokens matching `[A-Z0-9]{1,6}` — no letter
requirement, no stopword list — so "ETF" is accepted there. -/
theorem c7_amended :
    (∀ tok : String,
      _valid_ticker tok = true ↔
        (1 ≤ (strUpper (strStrip tok)).data.length ∧
         (strUpper (strStrip tok)).data.length ≤ 6 ∧
         (∃ c ∈ (strUpper (strStrip tok)).data, chIsAlpha c = true) ∧
         strUpper (strStrip tok) ∉ _TICKER_STOPWORDS)) ∧
    (∀ t : String, ticker_cell_fullmatch t = true ↔
        (1 ≤ t.data.length ∧ t.data.length ≤ 6 ∧
         ∀ c ∈ t.data, (chIsUpper c || chIsDigit c) = true)) ∧
    _valid_ticker "ETF" = false ∧ _valid_ticker "SCCO" = true ∧
    ticker_cell_fullmatch "ETF" = true ∧ ticker_cell_fullmatch "SCCO" = true := by
  refine ⟨?_, ?_, by decide, by decide, by decide, by decide⟩
  · intro tok
    rw [valid_ticker_eq_conj]
    simp only [Bool.and_eq_true, Bool.not_eq_true', decide_eq_true_eq,
      List.any_eq_true]
    have hcont : (_TICKER_STOPWORDS.contains (strUpper (strStrip tok)) = false) ↔
        strUpper (strStrip tok) ∉ _TICKER_STOPWORDS := by
      rw [← Bool.not_eq_true]
      exact not_congr List.elem_iff
    constructor
    · rintro ⟨⟨⟨h1, h2⟩, h3⟩, h4⟩
      exact ⟨h1, h2, h4, hcont.mp h3⟩
    · rintro ⟨h1, h2, h4, h3⟩
      exact ⟨⟨⟨h1, h2⟩, hcont.mpr h3⟩, h4⟩
  · intro t
    simp [ticker_cell_fullmatch, List.all_eq_true, and_assoc]

/-! ## Claim C3 -/

/-- C3 amended: when the SGML stage produces no rows, the filing's
extraction output is exactly one placeholder row carrying the filing
metadata, with empty series/class identifiers and ticker and provenance
`NONE` — whatever the HTML-table (or columnar/PDF) strategies would have
produced; their rows are discarded at the call site and only their plain
text is used (for ticker enrichment and the effective-date scan). -/
theorem c3_amended (meta : FilingMeta) (htmlTables : List (List (List String)))
    (htmlText : String) (tickerFor : String → String × String)
    (effDate : String) (delaying : Bool) :
    step3_filing_rows meta [] htmlTables htmlText tickerFor effDate delaying =
      [{ form := meta.form, filingDate := meta.filingDate,
         accession := meta.accession, primaryLink := meta.primaryLink,
         fullTxt := meta.fullTxt, registrant := meta.registrant,
         cik := meta.cik, extractedFrom := "NONE", effectiveDate := effDate,
         delayingAmendment := if delaying then "Y" else "" }] := rfl

def c3tables : List (List (List String)) :=
  [[["Fund Name", "Ticker Symbol"], ["Gamma Crypto Fund", "GAMC"]]]

def c3meta : FilingMeta :=
  { form := "485BPOS", filingDate := "2024-05-01", accession := "ACC1" }

/-- C3 counterexample: a filing with no SGML rows whose embedded HTML table
yields a (name, ticker) row.  The claim says that row must appear among the
filing's extraction rows; the code emits only the `NONE` placeholder. -/
theorem c3_counterexample :
    (extract_from_html_string c3tables "").1 =
      [{ className := "Gamma Crypto Fund", classSymbol := "GAMC",
         extractedFrom := "PRIMARY-HTML" }] ∧
    step3_filing_rows c3meta [] c3tables "" (fun _ => ("", "")) "" false =
      [{ form := "485BPOS", filingDate := "2024-05-01", accession := "ACC1",
         extractedFrom := "NONE" }] ∧
    ∀ r ∈ step3_filing_rows c3meta [] c3tables "" (fun _ => ("", "")) "" false,
      ¬(r.className = "Gamma Crypto Fund" ∧ r.classSymbol = "GAMC") := by decide

/-! ## Claim C2 -/

theorem append_dedupe_csv_idem (acc n : List Row) :
    append_dedupe_csv (append_dedupe_csv acc n) n = append_dedupe_csv acc n := by
  have e1 : append_dedupe_csv (append_dedupe_csv acc n) n =
      List.filter (fun a => !(n.any fun b => decide (rowKey b = rowKey a)))
        (dedupKeepLast rowKey (acc ++ n)) ++ dedupKeepLast rowKey n := by
    unfold append_dedupe_csv
    rw [dedupKeepLast_append rowKey (dedupKeepLast rowKey (acc ++ n)) n,
        dedupKeepLast_idem]
  have e2 : dedupKeepLast rowKey (acc ++ n) =
      List.filter (fun a => !(n.any fun b => decide (rowKey b = rowKey a)))
        (dedupKeepLast rowKey acc) ++ dedupKeepLast rowKey n :=
    dedupKeepLast_append rowKey acc n
  have hnil : List.filter (fun a => !(n.any fun b => decide (rowKey b = rowKey a)))
      (dedupKeepLast rowKey n) = [] := by
    rw [List.filter_eq_nil_iff]
    intro a ha
    have hmem := mem_of_mem_dedupKeepLast rowKey ha
    have hany : (n.any fun b => decide (rowKey b = rowKey a)) = true :=
      List.any_eq_true.mpr ⟨a, hmem, by simp⟩
    simp [hany]
  have hff : List.filter (fun a => !(n.any fun b => decide (rowKey b = rowKey a)))
        (List.filter (fun a => !(n.any fun b => decide (rowKey b = rowKey a)))
          (dedupKeepLast rowKey acc)) =
      List.filter (fun a => !(n.any fun b => decide (rowKey b = rowKey a)))
        (dedupKeepLast rowKey acc) := by
    rw [List.filter_filter]
    exact List.filter_congr (fun a _ => Bool.and_self _)
  have e3 : List.filter (fun a => !(n.any fun b => decide (rowKey b = rowKey a)))
        (dedupKeepLast rowKey (acc ++ n)) =
      List.filter (fun a => !(n.any fun b => decide (rowKey b = rowKey a)))
        (dedupKeepLast rowKey acc) := by
    rw [e2, List.filter_append, hff, hnil, List.append_nil]
  show _ = dedupKeepLast rowKey (acc ++ n)
  rw [e1, e3, ← e2]

/-- C2: the extraction append is idempotent on the accumulated row set:
after appending the (in-frame deduplicated) new rows, the tuple
(Accession Number, Class-Contract ID, Class Contract Name, Class Symbol)
is unique; every key resolves to the last-written row carrying it; and
re-appending the same rows leaves the accumulated list, hence its row
count, unchanged.  (`append_dedupe_csv` is modelled from the spec —
`csvio.py` is not in the source tree.) -/
theorem c2_extraction_idempotent (acc new : List Row) :
    (((append_dedupe_csv acc (step3_frame_dedup new)).map rowKey).Nodup) ∧
    (∀ k, (append_dedupe_csv acc (step3_frame_dedup new)).filter
          (fun r => decide (rowKey r = k)) =
        ((acc ++ step3_frame_dedup new).reverse.find?
          (fun r => decide (rowKey r = k))).toList) ∧
    (append_dedupe_csv (append_dedupe_csv acc (step3_frame_dedup new))
        (step3_frame_dedup new) =
      append_dedupe_csv acc (step3_frame_dedup new)) ∧
    ((append_dedupe_csv (append_dedupe_csv acc (step3_frame_dedup new))
        (step3_frame_dedup new)).length =
      (append_dedupe_csv acc (step3_frame_dedup new)).length) :=
  ⟨nodup_keys_dedupKeepLast rowKey _,
   fun k => filter_key_dedupKeepLast rowKey k _,
   append_dedupe_csv_idem acc (step3_frame_dedup new),
   by rw [append_dedupe_csv_idem acc (step3_frame_dedup new)]⟩

/-! ## Claim C1 -/

/-- C1: in a fund group containing both a "485B"-prefixed and a
"485A"-prefixed row, the chosen latest-prospectus record is the last (in
the stably date-sorted group) "485B"-prefixed row — which cannot also be a
"485A" row — with source `485B` and status `BPOS chosen`, regardless of
the rows' relative filing dates. -/
theorem c1_bpos_precedence (key : String) (g : List Row)
    (hasB : g.any is485B = true) (_hasA : g.any is485A = true) :
    ∃ r, ((sortByDate g).filter is485B).getLast? = some r ∧
      is485B r = true ∧ is485A r = false ∧
      (pick_latest key g).lpForm = r.form ∧
      (pick_latest key g).lpDate = r.filingDate ∧
      (pick_latest key g).lpLink = r.primaryLink ∧
      (pick_latest key g).lpSrc = "485B" ∧
      (pick_latest key g).status = "BPOS chosen" := by
  rcases List.any_eq_true.mp hasB with ⟨x, hxg, hxB⟩
  have hxs : x ∈ sortByDate g := by
    unfold sortByDate
    exact (List.mem_insertionSort dateLEP).mpr hxg
  have hxf : x ∈ (sortByDate g).filter is485B := List.mem_filter.mpr ⟨hxs, hxB⟩
  rcases hlast : ((sortByDate g).filter is485B).getLast? with _ | r
  · rw [List.getLast?_eq_none_iff] at hlast
    rw [hlast] at hxf
    simp at hxf
  · have hrB : is485B r = true :=
      List.of_mem_filter (mem_of_getLast?_eq hlast)
    refine ⟨r, rfl, hrB, is485A_eq_false_of_is485B hrB, ?_, ?_, ?_, ?_, ?_⟩ <;>
      simp [pick_latest, pick_from_sorted, main_selection, hlast]

def c1rowB : Row :=
  { classId := "CX", form := "485BPOS", filingDate := "2024-01-01",
    primaryLink := "LB" }

def c1rowA : Row :=
  { classId := "CX", form := "485APOS", filingDate := "2024-05-01",
    primaryLink := "LA" }

/-- C1 witness: a group where the 485B row predates the 485A row; the 485B
row is still chosen. -/
theorem c1_witness :
    ([c1rowB, c1rowA].any is485B = true) ∧ ([c1rowB, c1rowA].any is485A = true) ∧
    (pick_latest "k" [c1rowB, c1rowA]).lpSrc = "485B" ∧
    (pick_latest "k" [c1rowB, c1rowA]).lpLink = "LB" ∧
    (pick_latest "k" [c1rowB, c1rowA]).status = "BPOS chosen" := by
  have _h := c1_bpos_precedence "k" [c1rowB, c1rowA] (by decide) (by decide)
  exact ⟨by decide, by decide, by decide, by decide, by decide⟩

/-! ## Claim C8 -/

theorem truthyCell_effCell (r : Row) : truthyCell (effCell r) = true := by
  unfold effCell truthyCell
  by_cases h : r.effectiveDate = "" <;> simp [h]

theorem status_ne_eff75 (latestB latestA latestS : Option Row) :
    (main_selection latestB latestA latestS).status ≠ "APOS chosen (eff=+75d)" := by
  unfold main_selection
  cases latestB with
  | some row =>
    exact (by decide : ("BPOS chosen" : String) ≠ "APOS chosen (eff=+75d)")
  | none =>
    cases latestA with
    | some row =>
      show (if truthyCell (effCell row) = true then "APOS chosen (eff=parsed)"
            else "APOS chosen (eff=+75d)") ≠ "APOS chosen (eff=+75d)"
      rw [truthyCell_effCell row]
      exact (by decide : ("APOS chosen (eff=parsed)" : String) ≠ "APOS chosen (eff=+75d)")
    | none =>
      show (if latestS.isSome = true then "Supplements only"
            else "No prospectus form found") ≠ "APOS chosen (eff=+75d)"
      cases h : latestS.isSome
      · exact (by decide : ("No prospectus form found" : String) ≠ "APOS chosen (eff=+75d)")
      · exact (by decide : ("Supplements only" : String) ≠ "APOS chosen (eff=+75d)")

def c8row : Row :=
  { classId := "C8", className := "Delta Fund", form := "485APOS",
    filingDate := "2025-01-01" }

/-- C8: the claim is the spec's 75-day fallback — a 485A-only group filed
2025-01-01 with no parseable effective date must derive 2025-03-17.  The
code cannot take that branch: step 4 reads the extraction CSV with
`dtype=str` and no `fillna` on "Effective Date", so a missing date is NaN,
which is truthy, making `eff_parsed` truthy in every reachable case.  On
the claim's own example the program emits an EMPTY derived effective date
with status "APOS chosen (eff=parsed)" (not 2025-03-17 / "(eff=+75d)"),
even though `date_plus_days "2025-01-01" 75 = "2025-03-17"` and the
`(eff=+75d)` status string exists in the code for exactly this case; that
status is unreachable for every input. -/
theorem c8_missing_effective_date_eval :
    (pick_latest "k" [c8row]).lpSrc = "485A" ∧
    (pick_latest "k" [c8row]).lpEff = "" ∧
    (pick_latest "k" [c8row]).status = "APOS chosen (eff=parsed)" ∧
    date_plus_days "2025-01-01" 75 = "2025-03-17" ∧
    (∀ (key : String) (g : List Row),
      (pick_latest key g).status ≠ "APOS chosen (eff=+75d)") := by
  refine ⟨by decide, by decide, by decide, by decide, ?_⟩
  intro key g
  simp only [pick_latest, pick_from_sorted]
  exact status_ne_eff75 _ _ _

/-! ## Claim C9: lemmas about the `seen_names` walk -/

theorem keys_seenUpdateLast (m : SeenMap) (k d : String) :
    (seenUpdateLast m k d).map Prod.fst = m.map Prod.fst := by
  unfold seenUpdateLast
  rw [List.map_map]
  exact List.map_congr_left (fun p _ => by by_cases h : p.1 = k <;> simp [h])

theorem seenHasKey_iff {m : SeenMap} {k : String} :
    seenHasKey m k = true ↔ k ∈ m.map Prod.fst := by
  simp [seenHasKey, List.any_eq_true, List.mem_map]

theorem nodup_keys_snoc {m : SeenMap} {k : String} {i : NHInfo}
    (hm : (m.map Prod.fst).Nodup) (hk : seenHasKey m k = false) :
    ((m ++ [(k, i)]).map Prod.fst).Nodup := by
  rw [List.map_append, List.nodup_append]
  refine ⟨hm, List.nodup_singleton _, ?_⟩
  intro a ha hb
  simp only [List.map_cons, List.map_nil, List.mem_singleton] at hb
  subst hb
  have : ¬(seenHasKey m a = true) := by simp [hk]
  exact this (seenHasKey_iff.mpr ha)

theorem nodup_keys_step5_visit_name {m : SeenMap}
    (h : (m.map Prod.fst).Nodup) (r : Row) :
    ((step5_visit_name m r).map Prod.fst).Nodup := by
  unfold step5_visit_name
  split
  · split
    · rw [keys_seenUpdateLast]
      exact h
    · rename_i hk
      exact nodup_keys_snoc h (by simpa using hk)
  · exact h

theorem nodup_keys_step5_visit_prosp {m1 : SeenMap}
    (h : (m1.map Prod.fst).Nodup) (r : Row) :
    ((step5_visit_prosp m1 r).map Prod.fst).Nodup := by
  unfold step5_visit_prosp
  split
  · split
    · rename_i hk
      rw [Bool.and_eq_true] at hk
      have := hk.2
      rw [Bool.not_eq_true'] at this
      exact nodup_keys_snoc h this
    · split
      · rw [keys_seenUpdateLast]
        exact h
      · exact h
  · exact h

theorem nodup_keys_step5_visit {m : SeenMap} (h : (m.map Prod.fst).Nodup)
    (r : Row) : ((step5_visit m r).map Prod.fst).Nodup :=
  nodup_keys_step5_visit_prosp (nodup_keys_step5_visit_name h r) r

theorem nodup_keys_foldl_visit (l : List Row) (m : SeenMap)
    (h : (m.map Prod.fst).Nodup) :
    ((l.foldl step5_visit m).map Prod.fst).Nodup := by
  induction l generalizing m with
  | nil => exact h
  | cons r t ih => exact ih _ (nodup_keys_step5_visit h r)

theorem lastDate_seenUpdateLast {m : SeenMap} {k d : String}
    (hm : ∀ p ∈ m, p.2.lastDate ≠ "") (hd : d ≠ "") :
    ∀ p ∈ seenUpdateLast m k d, p.2.lastDate ≠ "" := by
  intro p hp
  unfold seenUpdateLast at hp
  rw [List.mem_map] at hp
  rcases hp with ⟨q, hq, hqe⟩
  by_cases h : q.1 = k
  · rw [if_pos h] at hqe
    rw [← hqe]
    exact hd
  · rw [if_neg h] at hqe
    rw [← hqe]
    exact hm q hq

theorem lastDate_snoc {m : SeenMap} {k : String} {i : NHInfo}
    (hm : ∀ p ∈ m, p.2.lastDate ≠ "") (hi : i.lastDate ≠ "") :
    ∀ p ∈ m ++ [(k, i)], p.2.lastDate ≠ "" := by
  intro p hp
  rcases List.mem_append.mp hp with h | h
  · exact hm p h
  · rw [List.mem_singleton] at h
    rw [h]
    exact hi

theorem lastDate_step5_visit {m : SeenMap} {r : Row}
    (hm : ∀ p ∈ m, p.2.lastDate ≠ "") (hr : r.filingDate ≠ "") :
    ∀ p ∈ step5_visit m r, p.2.lastDate ≠ "" := by
  have h1 : ∀ p ∈ step5_visit_name m r, p.2.lastDate ≠ "" := by
    unfold step5_visit_name
    split
    · split
      · exact lastDate_seenUpdateLast hm hr
      · exact lastDate_snoc hm hr
    · exact hm
  unfold step5_visit step5_visit_prosp
  split
  · split
    · exact lastDate_snoc h1 hr
    · split
      · exact lastDate_seenUpdateLast h1 hr
      · exact h1
  · exact h1

theorem lastDate_foldl_visit (l : List Row) (m : SeenMap)
    (hm : ∀ p ∈ m, p.2.lastDate ≠ "") (hl : ∀ r ∈ l, r.filingDate ≠ "") :
    ∀ p ∈ l.foldl step5_visit m, p.2.lastDate ≠ "" := by
  induction l generalizing m with
  | nil => exact hm
  | cons r t ih =>
    exact ih _ (lastDate_step5_visit hm (hl r (List.mem_cons_self _ _)))
      (fun r' hr' => hl r' (List.mem_cons_of_mem _ hr'))

theorem sLE_of_sLT_eq_false {x y : String} (h : sLT x y = false) :
    sLE y x = true := by
  rcases sLE_total x y with hle | hle
  · rw [sLT, hle, Bool.true_and, Bool.not_eq_false'] at h
    rw [beq_iff_eq] at h
    rw [h]
    exact sLE_refl _
  · exact hle

theorem foldl_lkStep_spec (rest : List (String × NHInfo)) :
    ∀ p : String × NHInfo,
      (rest.foldl lkStep p) ∈ p :: rest ∧
      ∀ q ∈ p :: rest, sLE q.2.lastDate (rest.foldl lkStep p).2.lastDate = true := by
  induction rest with
  | nil =>
    intro p
    refine ⟨List.mem_singleton_self _, ?_⟩
    intro q hq
    rw [List.mem_singleton] at hq
    rw [hq]
    exact sLE_refl _
  | cons x rest ih =>
    intro p
    have hfold : (x :: rest).foldl lkStep p = rest.foldl lkStep (lkStep p x) := rfl
    rcases ih (lkStep p x) with ⟨hmem, hbound⟩
    have hstep_mem : lkStep p x = p ∨ lkStep p x = x := by
      unfold lkStep
      split
      · right; rfl
      · left; rfl
    have hp_le : sLE p.2.lastDate (lkStep p x).2.lastDate = true := by
      unfold lkStep
      split
      · rename_i hlt
        exact (sLT_iff.mp hlt).1
      · exact sLE_refl _
    have hx_le : sLE x.2.lastDate (lkStep p x).2.lastDate = true := by
      unfold lkStep
      split
      · exact sLE_refl _
      · rename_i hlt
        exact sLE_of_sLT_eq_false (Bool.not_eq_true _ ▸ (Bool.eq_false_iff.mpr hlt))
    have hhead : sLE (lkStep p x).2.lastDate (rest.foldl lkStep (lkStep p x)).2.lastDate = true :=
      hbound _ (List.mem_cons_self _ _)
    constructor
    · rw [hfold]
      rcases List.mem_cons.mp hmem with h | h
      · rcases hstep_mem with he | he <;> rw [h, he]
        · exact List.mem_cons_self _ _
        · exact List.mem_cons_of_mem _ (List.mem_cons_self _ _)
      · exact List.mem_cons_of_mem _ (List.mem_cons_of_mem _ h)
    · intro q hq
      rw [hfold]
      rcases List.mem_cons.mp hq with h | h
      · rw [h]
        exact clLE_trans hp_le hhead
      · rcases List.mem_cons.mp h with h2 | h2
        · rw [h2]
          exact clLE_trans hx_le hhead
        · exact hbound q (List.mem_cons_of_mem _ h2)

theorem latestKey_spec (m : SeenMap) (hm : m ≠ []) :
    ∃ i, (latestKey m, i) ∈ m ∧
      ∀ q ∈ m, sLE q.2.lastDate i.lastDate = true := by
  cases m with
  | nil => exact absurd rfl hm
  | cons p rest =>
    rcases foldl_lkStep_spec rest p with ⟨hmem, hbound⟩
    exact ⟨(rest.foldl lkStep p).2, by simpa [latestKey] using hmem, hbound⟩

theorem countP_key_eq_one {m : SeenMap} (h : (m.map Prod.fst).Nodup)
    {k : String} (hk : k ∈ m.map Prod.fst) :
    m.countP (fun p => decide (p.1 = k)) = 1 := by
  induction m with
  | nil => simp at hk
  | cons p t ih =>
    rw [List.map_cons, List.nodup_cons] at h
    rw [List.countP_cons]
    rcases List.mem_cons.mp hk with hk1 | hk2
    · subst hk1
      have hzero : t.countP (fun q => decide (q.1 = p.1)) = 0 := by
        rw [List.countP_eq_length_filter, List.length_eq_zero, List.filter_eq_nil_iff]
        intro q hq
        simp only [decide_eq_true_eq]
        intro he
        exact h.1 (he ▸ List.mem_map_of_mem Prod.fst hq)
      simp [hzero]
    · have hne : ¬(p.1 = k) := fun he => h.1 (he ▸ hk2)
      rw [ih h.2 hk2]
      simp [hne]

theorem mem_unique_of_nodup_keys {m : SeenMap} (h : (m.map Prod.fst).Nodup)
    {k : String} {i1 i2 : NHInfo} (h1 : (k, i1) ∈ m) (h2 : (k, i2) ∈ m) :
    i1 = i2 := by
  induction m with
  | nil => simp at h1
  | cons p t ih =>
    rw [List.map_cons, List.nodup_cons] at h
    rcases List.mem_cons.mp h1 with ha | ha <;> rcases List.mem_cons.mp h2 with hb | hb
    · exact congrArg Prod.snd (ha.trans hb.symm)
    · exfalso
      have hmem : k ∈ List.map Prod.fst t := List.mem_map_of_mem Prod.fst hb
      have hk : k = p.1 := congrArg Prod.fst ha
      exact h.1 (by rw [← hk]; exact hmem)
    · exfalso
      have hmem : k ∈ List.map Prod.fst t := List.mem_map_of_mem Prod.fst ha
      have hk : k = p.1 := congrArg Prod.fst hb
      exact h.1 (by rw [← hk]; exact hmem)
    · exact ih h.2 ha hb

theorem seriesId_of_mem_series_history {sid : String} {g : List Row}
    {e : NHEntry} (h : e ∈ series_history sid g) : e.seriesId = sid := by
  simp only [series_history] at h
  split at h
  · simp at h
  · rw [List.mem_map] at h
    rcases h with ⟨p, _, he⟩
    rw [← he]

theorem series_history_eq {sid : String} {g : List Row}
    (h : (sortByDate g).foldl step5_visit [] ≠ []) :
    series_history sid g = ((sortByDate g).foldl step5_visit []).map (fun p =>
      { seriesId := sid, name := p.2.name,
        nameClean := clean_fund_name_for_rollup p.2.name,
        firstSeen := p.2.firstDate,
        lastSeen := if p.1 = latestKey ((sortByDate g).foldl step5_visit [])
                    then "" else p.2.lastDate,
        isCurrent := if p.1 = latestKey ((sortByDate g).foldl step5_visit [])
                     then "Y" else "",
        sourceForm := p.2.firstForm, sourceAcc := p.2.firstAcc,
        nameSource := p.2.source }) := by
  simp only [series_history]
  have hf : ((sortByDate g).foldl step5_visit []).isEmpty = false := by
    rw [Bool.eq_false_iff]
    intro hT
    exact h (List.isEmpty_iff.mp hT)
  rw [hf]
  simp

/-- C9: for every series with at least one tracked name, exactly one
history entry is flagged current; the flagged entry's Last Seen Date is
emitted empty while every other entry keeps its non-empty last-seen date
(filing dates being non-empty); the flagged entry is the entry whose
tracked `last_date` is maximal across the series; and every row of the
final name-history output carrying this series id is one of this series'
block rows. -/
theorem c9_current_name_selection (rows : List Row) (sid : String)
    (hdates : ∀ r ∈ rows, r.filingDate ≠ "")
    (hne : ((sortByDate (seriesGroup rows sid)).foldl step5_visit []) ≠ []) :
    ((series_history sid (seriesGroup rows sid)).countP
        (fun e => decide (e.isCurrent = "Y")) = 1) ∧
    (∀ e ∈ series_history sid (seriesGroup rows sid),
        e.isCurrent = "Y" → e.lastSeen = "") ∧
    (∀ e ∈ series_history sid (seriesGroup rows sid),
        e.isCurrent ≠ "Y" → e.lastSeen ≠ "") ∧
    (∃ i, (latestKey ((sortByDate (seriesGroup rows sid)).foldl step5_visit []), i) ∈
        ((sortByDate (seriesGroup rows sid)).foldl step5_visit []) ∧
      (∀ q ∈ (sortByDate (seriesGroup rows sid)).foldl step5_visit [],
        sLE q.2.lastDate i.lastDate = true) ∧
      (∀ e ∈ series_history sid (seriesGroup rows sid),
        e.isCurrent = "Y" → e.name = i.name ∧ e.firstSeen = i.firstDate)) ∧
    (∀ e ∈ step5_name_history rows, e.seriesId = sid →
        e ∈ series_history sid (seriesGroup rows sid)) := by
  have hnodup : ((((sortByDate (seriesGroup rows sid)).foldl step5_visit [])).map
      Prod.fst).Nodup := nodup_keys_foldl_visit _ _ (by simp)
  obtain ⟨i, himem, himax⟩ :=
    latestKey_spec ((sortByDate (seriesGroup rows sid)).foldl step5_visit []) hne
  have hkeymem : latestKey ((sortByDate (seriesGroup rows sid)).foldl step5_visit []) ∈
      (((sortByDate (seriesGroup rows sid)).foldl step5_visit [])).map Prod.fst :=
    List.mem_map_of_mem Prod.fst himem
  have hentries := @series_history_eq sid (seriesGroup rows sid) hne
  have hl : ∀ r ∈ sortByDate (seriesGroup rows sid), r.filingDate ≠ "" := by
    intro r hr
    have h1 : r ∈ seriesGroup rows sid := by
      unfold sortByDate at hr
      exact (List.mem_insertionSort dateLEP).mp hr
    have h2 : r ∈ sortByDate rows := by
      unfold seriesGroup at h1
      exact (List.mem_filter.mp h1).1
    have h3 : r ∈ rows := by
      unfold sortByDate at h2
      exact (List.mem_insertionSort dateLEP).mp h2
    exact hdates r h3
  have hinv := lastDate_foldl_visit (sortByDate (seriesGroup rows sid)) []
    (by simp) hl
  refine ⟨?_, ?_, ?_, ?_, ?_⟩
  · rw [hentries, List.countP_map]
    have hq : ∀ p ∈ (sortByDate (seriesGroup rows sid)).foldl step5_visit [],
        (((fun e : NHEntry => decide (e.isCurrent = "Y")) ∘ (fun p =>
          ({ seriesId := sid, name := p.2.name,
             nameClean := clean_fund_name_for_rollup p.2.name,
             firstSeen := p.2.firstDate,
             lastSeen := if p.1 = latestKey ((sortByDate (seriesGroup rows sid)).foldl
                 step5_visit []) then "" else p.2.lastDate,
             isCurrent := if p.1 = latestKey ((sortByDate (seriesGroup rows sid)).foldl
                 step5_visit []) then "Y" else "",
             sourceForm := p.2.firstForm, sourceAcc := p.2.firstAcc,
             nameSource := p.2.source } : NHEntry))) p = true) ↔
        ((fun p : String × NHInfo => decide
          (p.1 = latestKey ((sortByDate (seriesGroup rows sid)).foldl step5_visit [])))
            p = true) := by
      intro p _
      by_cases h : p.1 =
          latestKey ((sortByDate (seriesGroup rows sid)).foldl step5_visit []) <;>
        simp [h]
    rw [List.countP_congr hq]
    exact countP_key_eq_one hnodup hkeymem
  · intro e he hY
    rw [hentries] at he
    rcases List.mem_map.mp he with ⟨p, hp, rfl⟩
    by_cases hpk : p.1 = latestKey ((sortByDate (seriesGroup rows sid)).foldl step5_visit [])
    · simp [hpk]
    · simp [hpk] at hY
  · intro e he hY
    rw [hentries] at he
    rcases List.mem_map.mp he with ⟨p, hp, rfl⟩
    by_cases hpk : p.1 = latestKey ((sortByDate (seriesGroup rows sid)).foldl step5_visit [])
    · simp [hpk] at hY
    · simp only [hpk, if_neg (by exact hpk)]
      exact hinv p hp
  · refine ⟨i, himem, himax, ?_⟩
    intro e he hY
    rw [hentries] at he
    rcases List.mem_map.mp he with ⟨p, hp, rfl⟩
    by_cases hpk : p.1 = latestKey ((sortByDate (seriesGroup rows sid)).foldl step5_visit [])
    · have hpair : (latestKey ((sortByDate (seriesGroup rows sid)).foldl step5_visit []),
          p.2) ∈ (sortByDate (seriesGroup rows sid)).foldl step5_visit [] := by
        rw [← hpk]
        simpa using hp
      have heq : p.2 = i := mem_unique_of_nodup_keys hnodup hpair himem
      simp [heq]
    · simp [hpk] at hY
  · intro e he hesid
    simp only [step5_name_history] at he
    have he2 := (List.mem_insertionSort nhLEP).mp he
    rcases List.mem_flatMap.mp he2 with ⟨sid', hsid', hee⟩
    by_cases h0 : sid' = ""
    · rw [if_pos h0] at hee
      simp at hee
    · rw [if_neg h0] at hee
      have hss : sid' = sid :=
        (seriesId_of_mem_series_history hee).symm.trans hesid
      rw [hss] at hee
      exact hee

def c9row1 : Row :=
  { seriesId := "S1", className := "Alpha Fund", filingDate := "2024-01-01",
    form := "485APOS", accession := "A1" }

def c9row2 : Row :=
  { seriesId := "S1", className := "Alpha Fund", filingDate := "2024-06-01",
    form := "485BPOS", accession := "A2" }

def c9row3 : Row :=
  { seriesId := "S1", className := "Beta Fund", filingDate := "2024-07-01",
    form := "485BPOS", accession := "A3" }

/-- C9 witness: the spec's concrete example — Alpha Fund seen 2024-01-01
to 2024-06-01, Beta Fund ongoing from 2024-07-01: Beta Fund is flagged
current with empty Last Seen Date, Alpha Fund keeps 2024-06-01. -/
theorem c9_witness :
    (∀ r ∈ [c9row1, c9row2, c9row3], r.filingDate ≠ "") ∧
    ((step5_name_history [c9row1, c9row2, c9row3]).map
        (fun e => (e.name, e.isCurrent, e.lastSeen)) =
      [("Alpha Fund", "", "2024-06-01"), ("Beta Fund", "Y", "")]) := by
  have _h := c9_current_name_selection [c9row1, c9row2, c9row3] "S1"
    (by decide) (by decide)
  exact ⟨by decide, by decide⟩

/-! ## Claim C4 -/

theorem rel_of_before_last {α : Type} {p : α → Bool} {R : α → α → Prop}
    {l : List α} {a b : α} (hp : l.Pairwise R)
    (ha : l.reverse.find? p = some a) (hb : b ∈ l) (hpb : p b = true) :
    b = a ∨ R b a := by
  induction l with
  | nil => simp at hb
  | cons x t ih =>
    rw [List.reverse_cons, List.find?_append] at ha
    rw [List.pairwise_cons] at hp
    rcases hfind : t.reverse.find? p with _ | a0
    · rw [hfind] at ha
      simp only [Option.none_or] at ha
      have hax : a = x := by
        rcases hx : p x with _ | _
        · simp [List.find?, hx] at ha
        · simp [List.find?, hx] at ha
          exact ha.symm
      subst hax
      rcases List.mem_cons.mp hb with hbx | hbt
      · exact Or.inl hbx
      · exfalso
        rw [List.find?_eq_none] at hfind
        exact hfind b (List.mem_reverse.mpr hbt) hpb
    · rw [hfind] at ha
      rw [show (some a0).or ([x].find? p) = some a0 from rfl] at ha
      injection ha with ha
      subst ha
      have hat : a0 ∈ t := List.mem_reverse.mp (List.mem_of_find?_eq_some hfind)
      rcases List.mem_cons.mp hb with hbx | hbt
      · subst hbx
        exact Or.inr (hp.1 a0 hat)
      · exact ih hp.2 hfind hbt

def c4r1 : Row :=
  { classId := "C1", className := "Alpha Fund", classSymbol := "AAA",
    form := "485BPOS", filingDate := "2024-01-01", registrant := "R",
    primaryLink := "L1" }

def c4r2 : Row :=
  { classId := "C2", className := "Alpha Fund", classSymbol := "AAA",
    form := "485BPOS", filingDate := "2024-06-01", registrant := "R",
    primaryLink := "L2" }

/-- C4 counterexample: two groups collide on (casefolded canonical name,
uppercased ticker) with latest-prospectus dates 2024-01-01 and 2024-06-01;
the final dedup keeps the 2024-01-01 row — the EARLIER one.  The claim
says the later one is kept. -/
theorem c4_counterexample :
    ((groupKeys [c4r1, c4r2]).map (fun k =>
        pick_latest k ([c4r1, c4r2].filter fun r => decide (gkey r = k)))).map
        (fun fs => (strLower fs.canonical, strUpper fs.ticker, fs.lpDate)) =
      [("alpha fund", "AAA", "2024-01-01"), ("alpha fund", "AAA", "2024-06-01")] ∧
    (rollup [c4r1, c4r2]).map (fun fs => fs.lpDate) = ["2024-01-01"] := by decide

/-- C4 amended: in the final cross-group dedup, the kept row of every
(casefolded canonical name, uppercased ticker) collision class is the one
sorting last under (Registrant asc, Canonical Fund Name asc, Latest
Prospectus Date desc); in particular, among colliding rows that agree on
registrant and canonical name the kept row has the EARLIEST
latest-prospectus date — every other colliding row's date is at least as
late. -/
theorem c4_amended (l : List FundStatus) :
    (∀ k, (final_dedup l).filter (fun fs => decide (collKey fs = k)) =
      ((final_sort l).reverse.find? fun fs => decide (collKey fs = k)).toList) ∧
    (∀ a ∈ final_dedup l, ∀ b ∈ final_sort l, collKey a = collKey b →
      a.registrant = b.registrant → a.canonical = b.canonical →
      sLE a.lpDate b.lpDate = true) := by
  refine ⟨fun k => filter_key_dedupKeepLast collKey k _, ?_⟩
  intro a ha b hb hkey hreg hcan
  have hfa : a ∈ (final_dedup l).filter (fun fs => decide (collKey fs = collKey a)) :=
    List.mem_filter.mpr ⟨ha, by simp⟩
  rw [show final_dedup l = dedupKeepLast collKey (final_sort l) from rfl,
    filter_key_dedupKeepLast collKey (collKey a) (final_sort l)] at hfa
  rcases hfind : (final_sort l).reverse.find?
      (fun fs => decide (collKey fs = collKey a)) with _ | a0
  · rw [hfind] at hfa
    simp at hfa
  · rw [hfind] at hfa
    simp only [Option.toList_some, List.mem_singleton] at hfa
    subst hfa
    have hsorted : List.Pairwise fsLEP (final_sort l) :=
      List.sorted_insertionSort fsLEP l
    rcases rel_of_before_last hsorted hfind hb (by simp [hkey]) with hba | hba
    · rw [← hba]
      exact sLE_refl _
    · unfold fsLEP fsLE at hba
      rw [if_pos hreg.symm, if_pos hcan.symm] at hba
      exact hba

def c4fsA : FundStatus :=
  { canonical := "Alpha Fund", ticker := "AAA", lpDate := "2024-01-01",
    registrant := "R" }

def c4fsB : FundStatus :=
  { canonical := "Alpha Fund", ticker := "AAA", lpDate := "2024-06-01",
    registrant := "R" }

/-- C4 amended witness: the kept row of a two-element collision has the
earlier latest-prospectus date. -/
theorem c4_amended_witness :
    (c4fsA ∈ final_dedup [c4fsA, c4fsB]) ∧ (c4fsB ∈ final_sort [c4fsA, c4fsB]) ∧
    sLE c4fsA.lpDate c4fsB.lpDate = true :=
  ⟨by decide, by decide,
   (c4_amended [c4fsA, c4fsB]).2 c4fsA (by decide) c4fsB (by decide) rfl rfl rfl⟩

/-! ## Claim C6 -/

def c6r1 : Row :=
  { classId := "C9", className := "Beta Fund", classSymbol := "BBB",
    form := "485BPOS", filingDate := "2024-01-01", primaryLink := "LX" }

def c6r2 : Row :=
  { classId := "C9", className := "Beta Fund", classSymbol := "BBB",
    form := "485BPOS", filingDate := "2024-01-01", primaryLink := "LY" }

/-- C6 counterexample: two rows of the same fund group share a filing
date.  The stable sort keeps them in input order and `tail(1)` takes
whichever came last, so the two orderings of the same row set produce
different Fund Status rows (different latest-prospectus links): the claim,
stated for ANY two orderings, is false. -/
theorem c6_counterexample :
    rollup [c6r1, c6r2] ≠ rollup [c6r2, c6r1] ∧
    (rollup [c6r1, c6r2]).map (fun fs => fs.lpLink) = ["LY"] ∧
    (rollup [c6r2, c6r1]).map (fun fs => fs.lpLink) = ["LX"] := by decide

theorem sortByDate_eq_of_perm {g1 g2 : List Row} (hperm : g1.Perm g2)
    (hpair : g1.Pairwise fun a b => fdt a ≠ fdt b) :
    sortByDate g1 = sortByDate g2 := by
  have hps : (sortByDate g1).Perm (sortByDate g2) :=
    (List.perm_insertionSort dateLEP g1).trans
      (hperm.trans (List.perm_insertionSort dateLEP g2).symm)
  have hs1 : List.Pairwise dateLEP (sortByDate g1) :=
    List.sorted_insertionSort dateLEP g1
  have hs2 : List.Pairwise dateLEP (sortByDate g2) :=
    List.sorted_insertionSort dateLEP g2
  have hne1 : (sortByDate g1).Pairwise (fun a b => fdt a ≠ fdt b) :=
    (List.Perm.pairwise_iff (fun h => Ne.symm h)
      (List.perm_insertionSort dateLEP g1)).mpr hpair
  have hne2 : (sortByDate g2).Pairwise (fun a b => fdt a ≠ fdt b) :=
    (List.Perm.pairwise_iff (fun h => Ne.symm h)
      (List.perm_insertionSort dateLEP g2)).mpr
        ((List.Perm.pairwise_iff (fun h => Ne.symm h) hperm).mp hpair)
  have hst1 : (sortByDate g1).Pairwise dateLTP :=
    (hs1.and hne1).imp (fun hab => odLE_ne_lt hab.1 hab.2)
  have hst2 : (sortByDate g2).Pairwise dateLTP :=
    (hs2.and hne2).imp (fun hab => odLE_ne_lt hab.1 hab.2)
  exact List.eq_of_perm_of_sorted hps hst1 hst2

/-- C6 amended: the rollup is permutation-invariant PROVIDED the parsed
filing dates within each fund group are pairwise distinct: for two
orderings of the same extraction-row set with no within-group date ties,
the Fund Status output is identical.  (The counterexample shows the
unconditional claim fails on ties, where the stable sort preserves input
order.) -/
theorem c6_amended (l₁ l₂ : List Row) (hperm : l₁.Perm l₂)
    (hdistinct : l₁.Pairwise fun a b => gkey a = gkey b → fdt a ≠ fdt b) :
    rollup l₁ = rollup l₂ := by
  have hkeys : groupKeys l₁ = groupKeys l₂ := by
    unfold groupKeys
    have hp : (List.insertionSort sLEP (l₁.map gkey)).Perm
        (List.insertionSort sLEP (l₂.map gkey)) :=
      (List.perm_insertionSort sLEP _).trans
        ((hperm.map gkey).trans (List.perm_insertionSort sLEP _).symm)
    rw [List.eq_of_perm_of_sorted hp (List.sorted_insertionSort sLEP _)
      (List.sorted_insertionSort sLEP _)]
  have hpick : ∀ k, pick_latest k (l₁.filter fun r => decide (gkey r = k)) =
      pick_latest k (l₂.filter fun r => decide (gkey r = k)) := by
    intro k
    unfold pick_latest
    congr 1
    apply sortByDate_eq_of_perm (hperm.filter _)
    have hsub : (l₁.filter fun r => decide (gkey r = k)).Pairwise
        (fun a b => gkey a = gkey b → fdt a ≠ fdt b) :=
      List.Pairwise.sublist (List.filter_sublist l₁) hdistinct
    refine List.Pairwise.imp_of_mem ?_ hsub
    intro a b hma hmb hR
    have hga : gkey a = k := by simpa using List.of_mem_filter hma
    have hgb : gkey b = k := by simpa using List.of_mem_filter hmb
    exact hR (hga.trans hgb.symm)
  simp only [rollup]
  rw [hkeys]
  congr 1
  exact List.map_congr_left (fun k _ => hpick k)

def c6w1 : Row :=
  { classId := "C9", className := "Beta Fund", form := "485BPOS",
    filingDate := "2024-01-01" }

def c6w2 : Row :=
  { classId := "C9", className := "Beta Fund", form := "485BPOS",
    filingDate := "2024-03-01" }

/-- C6 amended witness: a same-group pair with distinct filing dates gives
the same rollup in either order. -/
theorem c6_witness :
    ([c6w1, c6w2].Pairwise fun a b => gkey a = gkey b → fdt a ≠ fdt b) ∧
    rollup [c6w1, c6w2] = rollup [c6w2, c6w1] :=
  ⟨by decide,
   c6_amended [c6w1, c6w2] [c6w2, c6w1] (List.Perm.swap c6w2 c6w1 []) (by decide)⟩

end EtpTracker


